import Mathlib

/-!
Verification of the permutation-generation engine in `src/cpp/pure_circle.cpp`
(repository Yusheng-Hu/Circle-Permutation-Algorithm).

The program is a single `main` loop over a state consisting of
  - `Circle_D : int[3*N]`, whose first `N` entries (`P1`) hold the base
    permutation, with a middle window `P2 = Circle_D + N` and a trailing
    window `P3 = Circle_D + 2*N - 1` mirroring `P1`'s first `N - 1` entries,
  - `C_PP : int[N]`, the plain-changes counter array (only indices
    `0 .. N-3` are ever used),
  - `total_perms : unsigned long long`, the running permutation count.

The source fixes `N = 14` by `#define`; the loop body is generic in `N`,
so the embedding takes `N` as an explicit parameter and the theorems
instantiate it where a claim speaks about the concrete build.  `int`
values are modelled as `Int` (no arithmetic in the generation path comes
near the `int` range), and `total_perms` as `Nat` (for the code's
`N = 14` the final count is `14! < 2^64`, so the 64-bit counter never
wraps and the unbounded model is exact).  Out-of-range reads return the
default `0` and out-of-range writes are dropped; the safety claim shows
the loop never performs either.
-/

/-- The compile-time size constant: the source has `#define N 14`. -/
def nSrc : Nat := 14

/-- The engine state: `Circle_D`, `C_PP` and `total_perms` of `main`. -/
structure Engine where
  D : List Int
  C : List Int
  total : Nat
deriving DecidableEq, Repr

/-- The three-assignment temp swap
`int temp = P1[a]; P1[a] = P1[b]; P1[b] = temp;` used by the PP phase. -/
def swapAt (l : List Int) (a b : Nat) : List Int :=
  ((l.set a (l.getD b 0)).set b (l.getD a 0))

/-- The effect of `memcpy(l + dst, l + src, n * sizeof(int))` on a non-overlapping region:
replace the `n` entries starting at `dst` with the `n` entries starting
at `src`. -/
def memcpySeg (dst src n : Nat) (l : List Int) : List Int :=
  l.take dst ++ (l.drop src).take n ++ l.drop (dst + n)

/-- State after the initialization in `main`: `Circle_D` is zero-filled
(`static ... = {0}`), then `for (j = 0; j < N; j++) P1[j] = j;`
writes the identity permutation into `P1`; `C_PP` is zero-filled and
`total_perms = 0`. -/
def initEngine (N : Nat) : Engine :=
  { D := (List.range N).map Int.ofNat ++ List.replicate (2 * N) 0
    C := List.replicate N 0
    total := 0 }

/-- Phase [1] of the loop body: `memcpy(P2, P1, (N-1)*sizeof(int));`
followed by `memcpy(P3, P1, (N-1)*sizeof(int));` where `P2 = Circle_D + N`
and `P3 = Circle_D + N + (N-1)`. -/
def syncMirror (N : Nat) (s : Engine) : Engine :=
  { s with D := memcpySeg (2 * N - 1) 0 (N - 1) (memcpySeg N 0 (N - 1) s.D) }

/-- One iteration of phase [2]'s `for` loop at `circle_index = ci`:
`total_perms += N;`
`Circle_D[lastIndex + ci] = Circle_D[N + ci];`
`Circle_D[N + ci] = lastIndex;`  (with `lastIndex = N - 1`). -/
def burstStep (N : Nat) (s : Engine) (ci : Nat) : Engine :=
  { s with
    total := s.total + N
    D := (s.D.set (N - 1 + ci) (s.D.getD (N + ci) 0)).set (N + ci) ((N : Int) - 1) }

/-- Phase [2], the CP burst: the `for` loop running `circle_index`
from `0` to `lastIndex - 1`. -/
def cpBurst (N : Nat) (s : Engine) : Engine :=
  (List.range (N - 1)).foldl (burstStep N) s

/-- The carry `while` loop of phase [3]:
`while (i > 0 && C_PP[i] > i) { target = C_PP[i]-1; swap P1[i] P1[target];
C_PP[i] = 0; i--; C_PP[i]++; }`.
The argument is the loop variable `i`; the loop can only repeat with a
strictly smaller `i`, so the recursion is structural.  Returns the final
`i` together with the updated `Circle_D` and `C_PP`. -/
def carryLoop : Nat → List Int → List Int → Nat × List Int × List Int
  | 0, d, c => (0, d, c)
  | i + 1, d, c =>
      if c.getD (i + 1) 0 > ((i : Int) + 1) then
        let target := (c.getD (i + 1) 0 - 1).toNat
        let d1 := swapAt d (i + 1) target
        let c1 := c.set (i + 1) 0
        let c2 := c1.set i (c1.getD i 0 + 1)
        carryLoop i d1 c2
      else (i + 1, d, c)

/-- Phase [3], the PP increment with carry and in-place swap:
`int i = N - 3; C_PP[i]++;` then the carry loop, then
`if (C_PP[0] < 1) { int target = C_PP[i] - 1; if (target >= 0) swap; }`
and finally the unconditional `P1[lastIndex] = lastIndex;`. -/
def ppAdvance (N : Nat) (s : Engine) : Engine :=
  let i0 := N - 3
  let c1 := s.C.set i0 (s.C.getD i0 0 + 1)
  let r := carryLoop i0 s.D c1
  let i := r.1
  let d1 := r.2.1
  let c2 := r.2.2
  let d2 :=
    if c2.getD 0 0 < 1 then
      let target : Int := c2.getD i 0 - 1
      if 0 ≤ target then swapAt d1 i target.toNat else d1
    else d1
  { D := d2.set (N - 1) ((N : Int) - 1), C := c2, total := s.total }

/-- One full iteration of the `while (C_PP[0] < 1)` body:
sync mirror, CP burst, PP advance. -/
def bodyStep (N : Nat) (s : Engine) : Engine :=
  ppAdvance N (cpBurst N (syncMirror N s))

/-- The loop guard `C_PP[0] < 1`. -/
def liveGuard (s : Engine) : Prop := s.C.getD 0 0 < 1

instance (s : Engine) : Decidable (liveGuard s) := by
  unfold liveGuard; infer_instance

/-- A `while (C_PP[0] < 1)` loop with explicit fuel, generic in the loop
body: test the guard, run the body, repeat. -/
def runLoopWith (b : Engine → Engine) : Nat → Engine → Engine
  | 0, s => s
  | fuel + 1, s => if s.C.getD 0 0 < 1 then runLoopWith b fuel (b s) else s

/-- The `while (C_PP[0] < 1)` loop of `main`: its body is `bodyStep`. -/
def runLoop (N : Nat) : Nat → Engine → Engine :=
  runLoopWith (bodyStep N)

/-- The state of `main` after `k` iterations of the `while` loop (the
state freezes once the guard fails, so this is total in `k`). -/
def engineAt (N k : Nat) : Engine :=
  runLoop N k (initEngine N)

/-! ### Pointwise lemmas about list reads and writes -/

theorem getD_of_length_le (l : List Int) (i : Nat) (h : l.length ≤ i) :
    l.getD i 0 = 0 := by
  rw [List.getD_eq_getElem?_getD, List.getElem?_eq_none h]
  rfl

theorem getD_set_self (l : List Int) (i : Nat) (v : Int) (h : i < l.length) :
    (l.set i v).getD i 0 = v := by
  rw [List.getD_eq_getElem?_getD, List.getElem?_set]
  simp [h]

theorem getD_set_ne (l : List Int) (i j : Nat) (v : Int) (h : i ≠ j) :
    (l.set i v).getD j 0 = l.getD j 0 := by
  rw [List.getD_eq_getElem?_getD, List.getElem?_set, if_neg h,
    ← List.getD_eq_getElem?_getD]

theorem getD_set (l : List Int) (i j : Nat) (v : Int) :
    (l.set i v).getD j 0 =
      if i = j ∧ i < l.length then v else l.getD j 0 := by
  by_cases hij : i = j
  · subst hij
    by_cases hlen : i < l.length
    · simp [hlen, getD_set_self]
    · simp [hlen, List.set_eq_of_length_le (Nat.le_of_not_lt hlen)]
  · simp [hij, getD_set_ne l i j v hij]

theorem set_getD_self (l : List Int) (i : Nat) : l.set i (l.getD i 0) = l := by
  by_cases h : i < l.length
  · apply List.ext_getElem?
    intro j
    rw [List.getElem?_set]
    by_cases hij : i = j
    · subst hij
      simp [h, List.getD_eq_getElem?_getD, List.getElem?_eq_getElem h]
    · simp [hij]
  · exact List.set_eq_of_length_le (Nat.le_of_not_lt h)

theorem swapAt_self (l : List Int) (a : Nat) : swapAt l a a = l := by
  unfold swapAt
  by_cases h : a < l.length
  · rw [List.set_set, set_getD_self]
  · rw [List.set_eq_of_length_le (Nat.le_of_not_lt h),
      List.set_eq_of_length_le (Nat.le_of_not_lt h)]

theorem length_swapAt (l : List Int) (a b : Nat) :
    (swapAt l a b).length = l.length := by
  unfold swapAt; simp

theorem getD_swapAt_ne (l : List Int) (a b j : Nat) (ha : a ≠ j) (hb : b ≠ j) :
    (swapAt l a b).getD j 0 = l.getD j 0 := by
  unfold swapAt
  rw [getD_set_ne _ _ _ _ hb, getD_set_ne _ _ _ _ ha]

/-- Writing a value into a slot and prepending the old content of the slot
is a permutation of prepending the value: the skeleton of the swap-is-a-
permutation argument. -/
theorem set_cons_perm (xs : List Int) (m : Nat) (x : Int) (h : m < xs.length) :
    (xs.getD m 0 :: xs.set m x).Perm (x :: xs) := by
  induction xs generalizing m with
  | nil => simp at h
  | cons y ys ih =>
      cases m with
      | zero => simpa using List.Perm.swap x y ys
      | succ k =>
          have hk : k < ys.length := by simpa using h
          have h1 : (ys.getD k 0 :: y :: ys.set k x).Perm
              (y :: ys.getD k 0 :: ys.set k x) := List.Perm.swap y (ys.getD k 0) _
          have h2 : (y :: ys.getD k 0 :: ys.set k x).Perm (y :: x :: ys) :=
            (ih k hk).cons y
          have h3 : (y :: x :: ys).Perm (x :: y :: ys) := List.Perm.swap x y ys
          simpa [List.getD_cons_succ] using (h1.trans h2).trans h3

theorem swapAt_perm (l : List Int) (a b : Nat) (ha : a < l.length)
    (hb : b < l.length) : (swapAt l a b).Perm l := by
  induction l generalizing a b with
  | nil => simp at ha
  | cons z zs ih =>
      cases a with
      | zero =>
          cases b with
          | zero => rw [swapAt_self]
          | succ k =>
              have hk : k < zs.length := by simpa using hb
              show ((z :: zs).set 0 ((z :: zs).getD (k + 1) 0)).set (k + 1)
                  ((z :: zs).getD 0 0) |>.Perm (z :: zs)
              simpa [List.getD_cons_succ, List.getD_cons_zero]
                using set_cons_perm zs k z hk
      | succ j =>
          cases b with
          | zero =>
              have hj : j < zs.length := by simpa using ha
              show ((z :: zs).set (j + 1) ((z :: zs).getD 0 0)).set 0
                  ((z :: zs).getD (j + 1) 0) |>.Perm (z :: zs)
              simpa [List.getD_cons_succ, List.getD_cons_zero]
                using set_cons_perm zs j z hj
          | succ k =>
              have hj : j < zs.length := by simpa using ha
              have hk : k < zs.length := by simpa using hb
              have : swapAt (z :: zs) (j + 1) (k + 1) = z :: swapAt zs j k := by
                unfold swapAt
                simp [List.getD_cons_succ]
              rw [this]
              exact (ih j k hj hk).cons z

/-! ### The memcpy segment operation -/

theorem length_memcpySeg (dst src n : Nat) (l : List Int)
    (hd : dst + n ≤ l.length) (hs : src + n ≤ l.length) :
    (memcpySeg dst src n l).length = l.length := by
  unfold memcpySeg
  simp only [List.length_append, List.length_take, List.length_drop]
  omega

theorem getD_memcpySeg (dst src n : Nat) (l : List Int)
    (hd : dst + n ≤ l.length) (hs : src + n ≤ l.length) (j : Nat) :
    (memcpySeg dst src n l).getD j 0 =
      if j < dst then l.getD j 0
      else if j < dst + n then l.getD (src + (j - dst)) 0
      else l.getD j 0 := by
  have hA : (l.take dst).length = dst := by simp; omega
  have hB : ((l.drop src).take n).length = n := by simp; omega
  have hAB : (l.take dst ++ (l.drop src).take n).length = dst + n := by
    rw [List.length_append, hA, hB]
  unfold memcpySeg
  rw [List.getD_eq_getElem?_getD]
  by_cases h1 : j < dst
  · rw [List.getElem?_append_left (by rw [hAB]; omega),
      List.getElem?_append_left (by rw [hA]; exact h1),
      List.getElem?_take, if_pos h1, ← List.getD_eq_getElem?_getD,
      if_pos h1]
  · by_cases h2 : j < dst + n
    · rw [List.getElem?_append_left (by rw [hAB]; omega),
        List.getElem?_append_right (by rw [hA]; omega),
        List.getElem?_take, hA, if_pos (by omega), List.getElem?_drop,
        ← List.getD_eq_getElem?_getD, if_neg h1, if_pos h2]
    · rw [List.getElem?_append_right (by rw [hAB]; omega),
        List.getElem?_drop, hAB, ← List.getD_eq_getElem?_getD,
        if_neg h1, if_neg h2]
      congr 1
      omega

theorem take_memcpySeg (dst src n m : Nat) (l : List Int) (hm : m ≤ dst)
    (hdl : dst ≤ l.length) :
    (memcpySeg dst src n l).take m = l.take m := by
  have hA : (l.take dst).length = dst := by simp; omega
  unfold memcpySeg
  rw [List.take_append_of_le_length (by rw [List.length_append, hA]; omega),
    List.take_append_of_le_length (by rw [hA]; omega),
    List.take_take]
  congr 1
  omega

/-! ### The CP burst as a fold -/

theorem foldl_burst_total (N : Nat) (il : List Nat) (s : Engine) :
    (il.foldl (burstStep N) s).total = s.total + il.length * N := by
  induction il generalizing s with
  | nil => simp
  | cons a t ih =>
      rw [List.foldl_cons, ih]
      simp [burstStep]
      ring

theorem foldl_burst_C (N : Nat) (il : List Nat) (s : Engine) :
    (il.foldl (burstStep N) s).C = s.C := by
  induction il generalizing s with
  | nil => rfl
  | cons a t ih => rw [List.foldl_cons, ih]; rfl

theorem foldl_burst_length (N : Nat) (il : List Nat) (s : Engine) :
    (il.foldl (burstStep N) s).D.length = s.D.length := by
  induction il generalizing s with
  | nil => rfl
  | cons a t ih =>
      rw [List.foldl_cons, ih]
      simp [burstStep]

theorem foldl_burst_frame (N : Nat) (il : List Nat) (s : Engine) (j : Nat)
    (h : ∀ ci ∈ il, j ≠ N - 1 + ci ∧ j ≠ N + ci) :
    (il.foldl (burstStep N) s).D.getD j 0 = s.D.getD j 0 := by
  induction il generalizing s with
  | nil => rfl
  | cons a t ih =>
      rw [List.foldl_cons, ih _ (fun ci hci => h ci (List.mem_cons_of_mem a hci))]
      have ha := h a (List.mem_cons_self a t)
      show ((s.D.set (N - 1 + a) _).set (N + a) _).getD j 0 = s.D.getD j 0
      rw [getD_set_ne _ _ _ _ (fun hc => ha.2 hc.symm),
        getD_set_ne _ _ _ _ (fun hc => ha.1 hc.symm)]

theorem cpBurst_total (N : Nat) (s : Engine) :
    (cpBurst N s).total = s.total + (N - 1) * N := by
  unfold cpBurst
  rw [foldl_burst_total]
  simp

theorem cpBurst_C (N : Nat) (s : Engine) : (cpBurst N s).C = s.C :=
  foldl_burst_C N _ s

theorem cpBurst_length (N : Nat) (s : Engine) :
    (cpBurst N s).D.length = s.D.length :=
  foldl_burst_length N _ s

theorem cpBurst_frame (N : Nat) (s : Engine) (j : Nat)
    (h : j < N - 1 ∨ 2 * N - 2 < j) :
    (cpBurst N s).D.getD j 0 = s.D.getD j 0 := by
  unfold cpBurst
  apply foldl_burst_frame
  intro ci hci
  have : ci < N - 1 := List.mem_range.mp hci
  omega

theorem cpBurst_take (N : Nat) (s : Engine) :
    (cpBurst N s).D.take (N - 1) = s.D.take (N - 1) := by
  unfold cpBurst
  generalize hl : List.range (N - 1) = il
  have hmem : ∀ ci ∈ il, ci < N - 1 := by
    intro ci hci; rw [← hl] at hci; exact List.mem_range.mp hci
  clear hl
  induction il generalizing s with
  | nil => rfl
  | cons a t ih =>
      rw [List.foldl_cons, ih _ (fun ci hci => hmem ci (List.mem_cons_of_mem a hci))]
      have ha : a < N - 1 := hmem a (List.mem_cons_self a t)
      show (((s.D.set (N - 1 + a) _).set (N + a) _).take (N - 1)) = _
      have hlen1 : ∀ (l : List Int), (l.take (N - 1)).length ≤ N - 1 + a := by
        intro l
        rw [List.length_take]
        exact le_trans (Nat.min_le_left _ _) (Nat.le_add_right _ _)
      have hlen2 : ∀ (l : List Int), (l.take (N - 1)).length ≤ N + a := by
        intro l
        rw [List.length_take]
        exact le_trans (Nat.min_le_left _ _) (by omega)
      rw [List.set_take, List.set_take,
        List.set_eq_of_length_le (by rw [List.length_set]; exact hlen2 _),
        List.set_eq_of_length_le (hlen1 _)]

/-! ### Generic loop lemmas -/

/-- Peeling an iteration off the end of the fuel: one more unit of fuel
applies the body once more to the result, provided the guard still holds
there, and otherwise changes nothing. -/
theorem runLoopWith_succ (b : Engine → Engine) (k : Nat) (s : Engine) :
    runLoopWith b (k + 1) s =
      if (runLoopWith b k s).C.getD 0 0 < 1 then b (runLoopWith b k s)
      else runLoopWith b k s := by
  induction k generalizing s with
  | zero => rfl
  | succ k ih =>
      show (if s.C.getD 0 0 < 1 then runLoopWith b (k + 1) (b s) else s) = _
      by_cases hg : s.C.getD 0 0 < 1
      · have h1 : runLoopWith b (k + 1) s = runLoopWith b k (b s) := by
          show (if s.C.getD 0 0 < 1 then _ else _) = _
          rw [if_pos hg]
        rw [if_pos hg, ih (b s), h1]
      · have h0 : runLoopWith b (k + 1) s = s := by
          show (if s.C.getD 0 0 < 1 then _ else _) = _
          rw [if_neg hg]
        rw [if_neg hg, h0, if_neg hg]

/-- Once the guard fails the loop state is frozen. -/
theorem runLoopWith_frozen (b : Engine → Engine) (k : Nat) (s : Engine)
    (h : ¬ s.C.getD 0 0 < 1) : runLoopWith b k s = s := by
  cases k with
  | zero => rfl
  | succ k => show (if s.C.getD 0 0 < 1 then _ else _) = _; rw [if_neg h]

/-- Running the loop for `m + n` iterations is running it for `m` and
then for `n` more (freezing makes the split unconditional). -/
theorem runLoopWith_add (b : Engine → Engine) (m n : Nat) (s : Engine) :
    runLoopWith b (m + n) s = runLoopWith b n (runLoopWith b m s) := by
  induction m generalizing s with
  | zero => rw [Nat.zero_add]; rfl
  | succ m ih =>
      have hadd : m + 1 + n = (m + n) + 1 := by omega
      rw [hadd]
      by_cases hg : s.C.getD 0 0 < 1
      · have h1 : runLoopWith b ((m + n) + 1) s = runLoopWith b (m + n) (b s) := by
          show (if s.C.getD 0 0 < 1 then _ else _) = _
          rw [if_pos hg]
        have h2 : runLoopWith b (m + 1) s = runLoopWith b m (b s) := by
          show (if s.C.getD 0 0 < 1 then _ else _) = _
          rw [if_pos hg]
        rw [h1, h2, ih]
      · have h1 : runLoopWith b ((m + n) + 1) s = s := by
          show (if s.C.getD 0 0 < 1 then _ else _) = _
          rw [if_neg hg]
        have h2 : runLoopWith b (m + 1) s = s := by
          show (if s.C.getD 0 0 < 1 then _ else _) = _
          rw [if_neg hg]
        rw [h1, h2, runLoopWith_frozen b n s hg]

theorem engineAt_zero (N : Nat) : engineAt N 0 = initEngine N := rfl

theorem engineAt_succ (N k : Nat) :
    engineAt N (k + 1) =
      if liveGuard (engineAt N k) then bodyStep N (engineAt N k)
      else engineAt N k := by
  unfold engineAt runLoop liveGuard
  exact runLoopWith_succ (bodyStep N) k (initEngine N)

/-! ### The factorial-base value of the counter array

`C_PP` behaves as a mixed-radix odometer: digit `i` (for `0 ≤ i ≤ N-3`)
ranges over `[0, i]`, so its radix is `i + 1` and the weight of digit `i`
is the product of the radices of the digits to its right. -/

/-- Weight of digit `i`: `1` at the least significant digit `N - 3`,
multiplied by radix `i + 2` of digit `i + 1` as `i` decreases. -/
def wgt (N i : Nat) : Nat :=
  if h : N - 3 ≤ i then 1 else (i + 2) * wgt N (i + 1)
termination_by N - i
decreasing_by
  have : i < N - 3 := Nat.lt_of_not_le h
  omega

theorem wgt_of_le (N i : Nat) (h : N - 3 ≤ i) : wgt N i = 1 := by
  unfold wgt
  rw [dif_pos h]

theorem wgt_of_lt (N i : Nat) (h : i < N - 3) :
    wgt N i = (i + 2) * wgt N (i + 1) := by
  conv_lhs => unfold wgt
  rw [dif_neg (Nat.not_le_of_lt h)]

theorem wgt_pos (N i : Nat) : 0 < wgt N i := by
  unfold wgt
  split
  · exact Nat.one_pos
  · rename_i h
    have : i < N - 3 := Nat.lt_of_not_le h
    have := wgt_pos N (i + 1)
    positivity
termination_by N - i
decreasing_by omega

/-- The weights telescope into the factorial: `wgt N i * (i+1)! = (N-2)!`. -/
theorem wgt_mul_factorial (N : Nat) (hN : 3 ≤ N) :
    ∀ d i, i ≤ N - 3 → N - 3 - i = d →
      wgt N i * Nat.factorial (i + 1) = Nat.factorial (N - 2) := by
  intro d
  induction d with
  | zero =>
      intro i hi hd
      have : i = N - 3 := by omega
      subst this
      rw [wgt_of_le N _ (le_refl _), Nat.one_mul]
      congr 1
      omega
  | succ d ih =>
      intro i hi hd
      have hlt : i < N - 3 := by omega
      rw [wgt_of_lt N i hlt]
      have h2 : (i + 1) ≤ N - 3 := by omega
      have h3 : N - 3 - (i + 1) = d := by omega
      calc (i + 2) * wgt N (i + 1) * Nat.factorial (i + 1)
          = wgt N (i + 1) * ((i + 2) * Nat.factorial (i + 1)) := by ring
        _ = wgt N (i + 1) * Nat.factorial (i + 2) := by
              rw [Nat.factorial_succ (i + 1)]
        _ = Nat.factorial (N - 2) := ih (i + 1) h2 h3

theorem wgt_zero_eq_factorial (N : Nat) (hN : 3 ≤ N) :
    wgt N 0 = Nat.factorial (N - 2) := by
  have := wgt_mul_factorial N hN (N - 3) 0 (Nat.zero_le _) (by omega)
  simpa [Nat.factorial] using this

/-- Partial odometer value: the weighted sum of the digits from index `i`
up to index `N - 3`. -/
def ctrValFrom (N : Nat) (c : List Int) (i : Nat) : Int :=
  if h : N - 3 < i then 0
  else c.getD i 0 * (wgt N i : Int) + ctrValFrom N c (i + 1)
termination_by N + 1 - i
decreasing_by
  have : i ≤ N - 3 := Nat.le_of_not_lt h
  omega

/-- The full odometer value of the counter array. -/
def ctrVal (N : Nat) (c : List Int) : Int := ctrValFrom N c 0

theorem ctrValFrom_of_gt (N : Nat) (c : List Int) (i : Nat) (h : N - 3 < i) :
    ctrValFrom N c i = 0 := by
  unfold ctrValFrom
  rw [dif_pos h]

theorem ctrValFrom_of_le (N : Nat) (c : List Int) (i : Nat) (h : i ≤ N - 3) :
    ctrValFrom N c i = c.getD i 0 * (wgt N i : Int) + ctrValFrom N c (i + 1) := by
  conv_lhs => unfold ctrValFrom
  rw [dif_neg (Nat.not_lt_of_le h)]

/-- The partial value as a `Finset` sum over the digit positions. -/
theorem ctrValFrom_eq_sum (N : Nat) (hN : 3 ≤ N) (c : List Int) :
    ∀ d i, N - 2 ≤ i + d →
      ctrValFrom N c i = ∑ j ∈ Finset.Ico i (N - 2), c.getD j 0 * (wgt N j : Int) := by
  intro d
  induction d with
  | zero =>
      intro i hi
      rw [ctrValFrom_of_gt N c i (by omega), Finset.Ico_eq_empty (by omega),
        Finset.sum_empty]
  | succ d ih =>
      intro i hi
      by_cases hc : N - 2 ≤ i
      · rw [ctrValFrom_of_gt N c i (by omega), Finset.Ico_eq_empty (by omega),
          Finset.sum_empty]
      · have hil : i < N - 2 := Nat.lt_of_not_le hc
        rw [ctrValFrom_of_le N c i (by omega), ih (i + 1) (by omega),
          Finset.sum_eq_sum_Ico_succ_bot hil]

theorem ctrVal_eq_sum (N : Nat) (hN : 3 ≤ N) (c : List Int) :
    ctrVal N c = ∑ j ∈ Finset.Ico 0 (N - 2), c.getD j 0 * (wgt N j : Int) :=
  ctrValFrom_eq_sum N hN c (N - 2) 0 (by omega)

/-- Writing a digit shifts the odometer value by the weighted difference. -/
theorem ctrVal_set (N : Nat) (hN : 3 ≤ N) (c : List Int) (m : Nat) (x : Int)
    (hm : m < N - 2) (hml : m < c.length) :
    ctrVal N (c.set m x) = ctrVal N c + (x - c.getD m 0) * (wgt N m : Int) := by
  rw [ctrVal_eq_sum N hN, ctrVal_eq_sum N hN]
  have hsplit :
      ∑ j ∈ Finset.Ico 0 (N - 2), ((c.set m x).getD j 0 * (wgt N j : Int)
          - c.getD j 0 * (wgt N j : Int))
        = (x - c.getD m 0) * (wgt N m : Int) := by
    rw [Finset.sum_eq_single m]
    · rw [getD_set_self c m x hml]
      ring
    · intro j hj hne
      rw [getD_set_ne c m j x (Ne.symm hne)]
      ring
    · intro hnm
      exfalso
      exact hnm (Finset.mem_Ico.mpr ⟨Nat.zero_le _, hm⟩)
  have := Finset.sum_sub_distrib
    (s := Finset.Ico 0 (N - 2))
    (f := fun j => (c.set m x).getD j 0 * (wgt N j : Int))
    (g := fun j => c.getD j 0 * (wgt N j : Int))
  linarith [this, hsplit]

/-! ### The carry loop -/

/-- Unfolding of one potential carry iteration. -/
theorem carryLoop_succ_eq (i : Nat) (d c : List Int) :
    carryLoop (i + 1) d c =
      if c.getD (i + 1) 0 > ((i : Int) + 1) then
        carryLoop i (swapAt d (i + 1) ((c.getD (i + 1) 0 - 1).toNat))
          ((c.set (i + 1) 0).set i ((c.set (i + 1) 0).getD i 0 + 1))
      else (i + 1, d, c) := rfl

/-- Master specification of the carry loop, assuming the digits strictly
below the entry index are in their normal range `[0, j]` and the entry
digit has been incremented at most one past its bound.  The loop leaves
`Circle_D` unchanged (each of its swaps is a self-swap), zeroes the
digits it carried through, increments the digit it rests on, and
preserves the odometer value. -/
theorem carryLoop_spec (N : Nat) (hN : 3 ≤ N) :
    ∀ (i : Nat) (d c : List Int), i ≤ N - 3 → c.length = N →
    (∀ j, j < i → 0 ≤ c.getD j 0 ∧ c.getD j 0 ≤ (j : Int)) →
    0 ≤ c.getD i 0 → c.getD i 0 ≤ (i : Int) + 1 →
    (carryLoop i d c).2.1 = d ∧
    (carryLoop i d c).1 ≤ i ∧
    (∀ j, i < j → (carryLoop i d c).2.2.getD j 0 = c.getD j 0) ∧
    (∀ j, (carryLoop i d c).1 < j → j ≤ i → (carryLoop i d c).2.2.getD j 0 = 0) ∧
    (∀ j, j < (carryLoop i d c).1 → (carryLoop i d c).2.2.getD j 0 = c.getD j 0) ∧
    (((carryLoop i d c).1 = i ∧ (carryLoop i d c).2.2 = c) ∨
      ((carryLoop i d c).1 < i ∧
        (carryLoop i d c).2.2.getD (carryLoop i d c).1 0
          = c.getD (carryLoop i d c).1 0 + 1)) ∧
    ((carryLoop i d c).1 = 0 ∨
      (carryLoop i d c).2.2.getD (carryLoop i d c).1 0 ≤ ((carryLoop i d c).1 : Int)) ∧
    ctrVal N (carryLoop i d c).2.2 = ctrVal N c ∧
    (carryLoop i d c).2.2.length = N := by
  intro i
  induction i with
  | zero =>
      intro d c hi hc hlow hc0 hc1
      refine ⟨rfl, le_refl _, ?_, ?_, ?_, Or.inl ⟨rfl, rfl⟩, Or.inl rfl, rfl, hc⟩
      · intro j hj; rfl
      · intro j hj1 hj2; omega
      · intro j hj; exact absurd hj (Nat.not_lt_zero j)
  | succ i ih =>
      intro d c hi hc hlow hc0 hc1
      rw [carryLoop_succ_eq]
      by_cases hif : c.getD (i + 1) 0 > ((i : Int) + 1)
      · rw [if_pos hif]
        -- the digit at i+1 is exactly i+2, so the swap target is i+1 itself
        have hval : c.getD (i + 1) 0 = (i : Int) + 2 := by omega
        have htarget : ((c.getD (i + 1) 0 - 1).toNat) = i + 1 := by
          rw [hval]; omega
        rw [htarget, swapAt_self]
        have hc2i : (c.set (i + 1) 0).getD i 0 = c.getD i 0 :=
          getD_set_ne _ _ _ _ (by omega)
        rw [hc2i]
        have hi1N : i + 1 < c.length := by omega
        have hiN : i < (c.set (i + 1) 0).length := by
          rw [List.length_set]; omega
        -- description of the updated counter list
        have hcl : ((c.set (i + 1) 0).set i (c.getD i 0 + 1)).length = N := by
          simp [hc]
        have hget2 : ∀ j, j ≠ i → j ≠ i + 1 →
            ((c.set (i + 1) 0).set i (c.getD i 0 + 1)).getD j 0 = c.getD j 0 := by
          intro j hji hji1
          rw [getD_set_ne _ _ _ _ (Ne.symm (by omega)),
            getD_set_ne _ _ _ _ (Ne.symm (by omega))]
        have hgeti : ((c.set (i + 1) 0).set i (c.getD i 0 + 1)).getD i 0
            = c.getD i 0 + 1 := getD_set_self _ _ _ hiN
        have hgeti1 : ((c.set (i + 1) 0).set i (c.getD i 0 + 1)).getD (i + 1) 0
            = 0 := by
          rw [getD_set_ne _ _ _ _ (by omega), getD_set_self _ _ _ hi1N]
        have hlow' : ∀ j, j < i →
            0 ≤ ((c.set (i + 1) 0).set i (c.getD i 0 + 1)).getD j 0 ∧
              ((c.set (i + 1) 0).set i (c.getD i 0 + 1)).getD j 0 ≤ (j : Int) := by
          intro j hj
          rw [hget2 j (by omega) (by omega)]
          exact hlow j (by omega)
        have hilow := hlow i (Nat.lt_succ_self i)
        have hval2 : ctrVal N ((c.set (i + 1) 0).set i (c.getD i 0 + 1))
            = ctrVal N c := by
          rw [ctrVal_set N hN _ i _ (by omega) hiN,
            ctrVal_set N hN c (i + 1) 0 (by omega) hi1N, hc2i, hval,
            wgt_of_lt N i (by omega)]
          push_cast
          ring
        have HI := ih d ((c.set (i + 1) 0).set i (c.getD i 0 + 1))
          (by omega) hcl hlow' (by rw [hgeti]; omega) (by rw [hgeti]; omega)
        obtain ⟨k1, k2, k3, k4, k5, k6, k7, k8, k9⟩ := HI
        refine ⟨k1, by omega, ?_, ?_, ?_, ?_, k7, by rw [k8, hval2], k9⟩
        · intro j hj
          rw [k3 j (by omega), hget2 j (by omega) (by omega)]
        · intro j hj1 hj2
          by_cases hji1 : j = i + 1
          · subst hji1
            rw [k3 (i + 1) (by omega), hgeti1]
          · exact k4 j hj1 (by omega)
        · intro j hj
          rw [k5 j hj, hget2 j (by omega) (by omega)]
        · rcases k6 with ⟨e1, e2⟩ | ⟨l1, l2⟩
          · refine Or.inr ⟨by omega, ?_⟩
            rw [e1, e2, hgeti]
          · refine Or.inr ⟨by omega, ?_⟩
            rw [l2, hget2 _ (by omega) (by omega)]
      · rw [if_neg hif]
        refine ⟨rfl, le_refl _, ?_, ?_, ?_, Or.inl ⟨rfl, rfl⟩,
          Or.inr (by show c.getD (i + 1) 0 ≤ ((i + 1 : Nat) : Int); omega),
          rfl, hc⟩
        · intro j hj; rfl
        · intro j hj1 hj2; omega
        · intro j hj; rfl

/-- Digits in their normal ranges bound the partial value below the next
weight: the odometer cannot reach `wgt N (a-1)` using digits `a..N-3`. -/
theorem ctrValFrom_bound (N : Nat) (hN : 3 ≤ N) (c : List Int) :
    ∀ d a, N - 2 ≤ a + d → 1 ≤ a →
      (∀ j, a ≤ j → j ≤ N - 3 → 0 ≤ c.getD j 0 ∧ c.getD j 0 ≤ (j : Int)) →
      0 ≤ ctrValFrom N c a ∧ ctrValFrom N c a < (wgt N (a - 1) : Int) := by
  intro d
  induction d with
  | zero =>
      intro a ha h1 hdig
      rw [ctrValFrom_of_gt N c a (by omega)]
      exact ⟨le_refl 0, by exact_mod_cast wgt_pos N (a - 1)⟩
  | succ d ih =>
      intro a ha h1 hdig
      by_cases hc : N - 2 ≤ a
      · rw [ctrValFrom_of_gt N c a (by omega)]
        exact ⟨le_refl 0, by exact_mod_cast wgt_pos N (a - 1)⟩
      · have haN : a ≤ N - 3 := by omega
        rw [ctrValFrom_of_le N c a haN]
        have hrest := ih (a + 1) (by omega) (by omega)
          (fun j hj1 hj2 => hdig j (by omega) hj2)
        have hda := hdig a (le_refl a) haN
        have hw : wgt N (a - 1) = (a + 1) * wgt N a := by
          have := wgt_of_lt N (a - 1) (by omega)
          have he : a - 1 + 2 = a + 1 := by omega
          have he2 : a - 1 + 1 = a := by omega
          rw [he, he2] at this
          exact this
        have hs : (a + 1 : Nat) = a + (1 : Nat) := rfl
        have hwa : (0 : Int) < (wgt N a : Int) := by exact_mod_cast wgt_pos N a
        have hmul : c.getD a 0 * (wgt N a : Int) ≤ (a : Int) * (wgt N a : Int) :=
          mul_le_mul_of_nonneg_right hda.2 (le_of_lt hwa)
        have hmul0 : 0 ≤ c.getD a 0 * (wgt N a : Int) :=
          mul_nonneg hda.1 (le_of_lt hwa)
        constructor
        · linarith [hrest.1]
        · have hsucc : (wgt N (a + 1 - 1) : Int) = (wgt N a : Int) := rfl
          rw [hsucc] at hrest
          have : (wgt N (a - 1) : Int) = ((a : Int) + 1) * (wgt N a : Int) := by
            rw [hw]
            push_cast
            ring
          rw [this]
          nlinarith [hrest.2, hrest.1]

/-- The counter invariant at the top of the `while` loop: all digits in
their normal ranges (in particular `C_PP[0] = 0`) and the unused high
entries zero. -/
def cInv (N : Nat) (c : List Int) : Prop :=
  c.length = N ∧ (∀ j, j ≤ N - 3 → 0 ≤ c.getD j 0 ∧ c.getD j 0 ≤ (j : Int)) ∧
  (∀ j, N - 3 < j → c.getD j 0 = 0)

/-- The counter invariant after a PP advance: digits `1..N-3` in range,
high entries zero, and digit 0 equal to `0` or `1`. -/
def cInvW (N : Nat) (c : List Int) : Prop :=
  c.length = N ∧
  (∀ j, 1 ≤ j → j ≤ N - 3 → 0 ≤ c.getD j 0 ∧ c.getD j 0 ≤ (j : Int)) ∧
  (∀ j, N - 3 < j → c.getD j 0 = 0) ∧
  (0 ≤ c.getD 0 0 ∧ c.getD 0 0 ≤ 1)

theorem cInv_c0 (N : Nat) (c : List Int) (h : cInv N c) : c.getD 0 0 = 0 := by
  have := h.2.1 0 (Nat.zero_le _)
  have h0 : ((0 : Nat) : Int) = 0 := rfl
  omega

/-- A weak-invariant counter with digit 0 equal to zero satisfies the
strong invariant. -/
theorem cInvW_to_cInv (N : Nat) (c : List Int) (h : cInvW N c)
    (h0 : c.getD 0 0 = 0) : cInv N c := by
  refine ⟨h.1, ?_, h.2.2.1⟩
  intro j hj
  cases Nat.eq_zero_or_pos j with
  | inl hz =>
      subst hz
      rw [h0, Nat.cast_zero]
      exact ⟨le_refl 0, le_refl 0⟩
  | inr hpos => exact h.2.1 j hpos hj

/-- Under the weak invariant, digit 0 tells whether the odometer value
has passed `(N-2)!`. -/
theorem cInvW_c0_iff (N : Nat) (hN : 3 ≤ N) (c : List Int) (h : cInvW N c) :
    (c.getD 0 0 = 0 ↔ ctrVal N c < (Nat.factorial (N - 2) : Int)) ∧
    (c.getD 0 0 = 1 ↔ (Nat.factorial (N - 2) : Int) ≤ ctrVal N c) := by
  have hsplit : ctrVal N c
      = c.getD 0 0 * (wgt N 0 : Int) + ctrValFrom N c 1 := by
    rw [ctrVal, ctrValFrom_of_le N c 0 (Nat.zero_le _)]
  have hbound := ctrValFrom_bound N hN c (N - 2) 1 (by omega) (le_refl 1)
    (fun j hj1 hj2 => h.2.1 j hj1 hj2)
  have hw0 : wgt N (1 - 1) = wgt N 0 := rfl
  rw [hw0] at hbound
  have hfac : (wgt N 0 : Int) = (Nat.factorial (N - 2) : Int) := by
    exact_mod_cast congrArg Nat.cast (wgt_zero_eq_factorial N hN)
  rw [hfac] at hsplit hbound
  have h0 := h.2.2.2
  constructor
  · constructor
    · intro hz; rw [hz] at hsplit; simp at hsplit; omega
    · intro hlt
      by_contra hne
      have h1 : c.getD 0 0 = 1 := by omega
      rw [h1] at hsplit
      simp at hsplit
      omega
  · constructor
    · intro h1; rw [h1] at hsplit; simp at hsplit; omega
    · intro hge
      by_contra hne
      have hz : c.getD 0 0 = 0 := by omega
      rw [hz] at hsplit
      simp at hsplit
      omega

/-! ### The PP advance step -/

/-- The counter path of the carry loop ignores `Circle_D`. -/
theorem carryLoop_c_indep : ∀ (i : Nat) (d d' c : List Int),
    (carryLoop i d c).1 = (carryLoop i d' c).1 ∧
    (carryLoop i d c).2.2 = (carryLoop i d' c).2.2 := by
  intro i
  induction i with
  | zero => intro d d' c; exact ⟨rfl, rfl⟩
  | succ i ih =>
      intro d d' c
      rw [carryLoop_succ_eq, carryLoop_succ_eq]
      by_cases hif : c.getD (i + 1) 0 > ((i : Int) + 1)
      · rw [if_pos hif, if_pos hif]
        exact ih _ _ _
      · rw [if_neg hif, if_neg hif]
        exact ⟨rfl, rfl⟩

/-- Projections of `ppAdvance` in terms of the carry loop result. -/
theorem ppAdvance_parts (N : Nat) (s : Engine) (i' : Nat) (d1 c2 : List Int)
    (hr : carryLoop (N - 3) s.D (s.C.set (N - 3) (s.C.getD (N - 3) 0 + 1))
      = (i', d1, c2)) :
    (ppAdvance N s).C = c2 ∧ (ppAdvance N s).total = s.total ∧
    (ppAdvance N s).D =
      (if c2.getD 0 0 < 1 then
        if 0 ≤ c2.getD i' 0 - 1 then swapAt d1 i' ((c2.getD i' 0 - 1).toNat)
        else d1
      else d1).set (N - 1) ((N : Int) - 1) := by
  simp only [ppAdvance]
  rw [hr]
  exact ⟨rfl, trivial, rfl⟩



/-- Full specification of one PP advance from a state satisfying the
loop-entry counter invariant, stated for a pair of states sharing the
same counter array (the second state drives the equivalence proof for
the mirror-variant program): the counter moves to the next odometer
value and satisfies the weak invariant, the running total is untouched,
and `Circle_D` changes by one swap inside the first `N - 1` slots
followed by the write of `N - 1` into slot `N - 1`. -/
theorem ppAdvance_spec (N : Nat) (hN : 3 ≤ N) (s t : Engine)
    (hC : t.C = s.C) (hinv : cInv N s.C) :
    cInvW N (ppAdvance N s).C ∧
    ctrVal N (ppAdvance N s).C = ctrVal N s.C + 1 ∧
    (ppAdvance N s).total = s.total ∧
    (ppAdvance N t).total = t.total ∧
    (ppAdvance N t).C = (ppAdvance N s).C ∧
    ∃ a b : Nat, a < N - 1 ∧ b < N - 1 ∧
      (ppAdvance N s).D = (swapAt s.D a b).set (N - 1) ((N : Int) - 1) ∧
      (ppAdvance N t).D = (swapAt t.D a b).set (N - 1) ((N : Int) - 1) := by
  obtain ⟨hlen, hdig, hhigh⟩ := hinv
  have hi0N : N - 3 < s.C.length := by omega
  have hc1len : (s.C.set (N - 3) (s.C.getD (N - 3) 0 + 1)).length = N := by
    rw [List.length_set]; exact hlen
  have hc1low : ∀ j, j < N - 3 →
      0 ≤ (s.C.set (N - 3) (s.C.getD (N - 3) 0 + 1)).getD j 0 ∧
      (s.C.set (N - 3) (s.C.getD (N - 3) 0 + 1)).getD j 0 ≤ (j : Int) := by
    intro j hj
    rw [getD_set_ne _ _ _ _ (by omega)]
    exact hdig j (by omega)
  have htop := hdig (N - 3) (le_refl _)
  have hc1top : (s.C.set (N - 3) (s.C.getD (N - 3) 0 + 1)).getD (N - 3) 0
      = s.C.getD (N - 3) 0 + 1 := getD_set_self _ _ _ hi0N
  have hc1ne : ∀ j, j ≠ N - 3 →
      (s.C.set (N - 3) (s.C.getD (N - 3) 0 + 1)).getD j 0 = s.C.getD j 0 := by
    intro j hj
    exact getD_set_ne _ _ _ _ (Ne.symm (by omega))
  have hc1val : ctrVal N (s.C.set (N - 3) (s.C.getD (N - 3) 0 + 1))
      = ctrVal N s.C + 1 := by
    rw [ctrVal_set N hN s.C (N - 3) _ (by omega) hi0N, wgt_of_le N _ (le_refl _)]
    push_cast
    ring
  have hs0 : s.C.getD 0 0 = 0 := by
    have := hdig 0 (Nat.zero_le _)
    have h00 : ((0 : Nat) : Int) = 0 := rfl
    omega
  obtain ⟨i', d1, c2, hr⟩ :
      ∃ u v w, carryLoop (N - 3) s.D (s.C.set (N - 3) (s.C.getD (N - 3) 0 + 1))
        = (u, v, w) := ⟨_, _, _, rfl⟩
  obtain ⟨i2, dt1, ct2, hrt⟩ :
      ∃ u v w, carryLoop (N - 3) t.D (s.C.set (N - 3) (s.C.getD (N - 3) 0 + 1))
        = (u, v, w) := ⟨_, _, _, rfl⟩
  have K := carryLoop_spec N hN (N - 3) s.D
    (s.C.set (N - 3) (s.C.getD (N - 3) 0 + 1)) (le_refl _) hc1len hc1low
    (by rw [hc1top]; omega) (by rw [hc1top]; push_cast; omega)
  have Kt := carryLoop_spec N hN (N - 3) t.D
    (s.C.set (N - 3) (s.C.getD (N - 3) 0 + 1)) (le_refl _) hc1len hc1low
    (by rw [hc1top]; omega) (by rw [hc1top]; push_cast; omega)
  have hind := carryLoop_c_indep (N - 3) s.D t.D
    (s.C.set (N - 3) (s.C.getD (N - 3) 0 + 1))
  rw [hr] at K
  rw [hrt] at Kt
  rw [hr, hrt] at hind
  dsimp only at hind K Kt
  obtain ⟨hieq, hceq⟩ := hind
  obtain ⟨k1, k2, k3, k4, k5, k6, k7, k8, k9⟩ := K
  obtain ⟨kt1, -, -, -, -, -, -, -, -⟩ := Kt
  obtain ⟨PsC, PsT, PsD⟩ := ppAdvance_parts N s i' d1 c2 hr
  obtain ⟨PtC, PtT, PtD⟩ := ppAdvance_parts N t i2 dt1 ct2 (by rw [hC]; exact hrt)
  -- digit ranges of the final counter
  have hdigits : ∀ j, 1 ≤ j → j ≤ N - 3 →
      0 ≤ c2.getD j 0 ∧ c2.getD j 0 ≤ (j : Int) := by
    intro j h1 hj
    by_cases hji : j = i'
    · subst hji
      have hup : c2.getD j 0 ≤ (j : Int) := by
        rcases k7 with hz | hle
        · omega
        · exact hle
      have hlow2 : 0 ≤ c2.getD j 0 := by
        rcases k6 with ⟨e1, e2⟩ | ⟨l1, l2⟩
        · rw [e2, e1, hc1top]
          omega
        · rw [l2, hc1ne j (by omega)]
          have := hdig j (by omega)
          omega
      exact ⟨hlow2, hup⟩
    · rcases Nat.lt_or_ge j i' with hlt | hge
      · rw [k5 j hlt, hc1ne j (by omega)]
        exact hdig j (by omega)
      · have hgt : i' < j := by omega
        rw [k4 j hgt hj]
        constructor
        · exact le_refl 0
        · exact_mod_cast Int.ofNat_nonneg j
  have hhigh2 : ∀ j, N - 3 < j → c2.getD j 0 = 0 := by
    intro j hj
    rw [k3 j hj, hc1ne j (by omega)]
    exact hhigh j hj
  have hc20 : 0 ≤ c2.getD 0 0 ∧ c2.getD 0 0 ≤ 1 := by
    by_cases hz : i' = 0
    · subst hz
      rcases k6 with ⟨e1, e2⟩ | ⟨l1, l2⟩
      · have hN3 : N - 3 = 0 := e1.symm
        rw [hN3] at hc1top
        rw [e2, hN3, hc1top, hs0]
        omega
      · rw [l2, hc1ne 0 (by omega), hs0]
        omega
    · have hpos : 0 < i' := Nat.pos_of_ne_zero hz
      rw [k5 0 hpos, hc1ne 0 (by omega), hs0]
      omega
  have hw : cInvW N c2 := ⟨k9, hdigits, hhigh2, hc20⟩
  have hwp : cInvW N (ppAdvance N s).C := by rw [PsC]; exact hw
  have hvp : ctrVal N (ppAdvance N s).C = ctrVal N s.C + 1 := by
    rw [PsC, k8, hc1val]
  refine ⟨hwp, hvp, PsT, PtT, by rw [PtC, PsC, hceq], ?_⟩
  have hi'N1 : i' < N - 1 := by omega
  rw [PsD, PtD, k1, kt1, ← hieq, ← hceq]
  by_cases hg : c2.getD 0 0 < 1
  · by_cases htg : (0 : Int) ≤ c2.getD i' 0 - 1
    · refine ⟨i', (c2.getD i' 0 - 1).toNat, hi'N1, ?_, ?_, ?_⟩
      · by_cases hz : i' = 0
        · subst hz
          omega
        · have h1 : 1 ≤ i' := Nat.pos_of_ne_zero hz
          have := hdigits i' h1 (by omega)
          omega
      · rw [if_pos hg, if_pos htg]
      · rw [if_pos hg, if_pos htg]
    · refine ⟨i', i', hi'N1, hi'N1, ?_, ?_⟩
      · rw [if_pos hg, if_neg htg, swapAt_self]
      · rw [if_pos hg, if_neg htg, swapAt_self]
  · refine ⟨i', i', hi'N1, hi'N1, ?_, ?_⟩
    · rw [if_neg hg, swapAt_self]
    · rw [if_neg hg, swapAt_self]

/-! ### The mirror synchronisation -/

theorem getD_take (l : List Int) (n j : Nat) (h : j < n) :
    (l.take n).getD j 0 = l.getD j 0 := by
  rw [List.getD_eq_getElem?_getD, List.getElem?_take, if_pos h,
    ← List.getD_eq_getElem?_getD]

theorem take_swapAt (l : List Int) (a b n : Nat) (ha : a < n) (hb : b < n) :
    (swapAt l a b).take n = swapAt (l.take n) a b := by
  unfold swapAt
  rw [List.set_take, List.set_take, getD_take l n b hb, getD_take l n a ha]

theorem syncMirror_C (N : Nat) (s : Engine) : (syncMirror N s).C = s.C := rfl

theorem syncMirror_total (N : Nat) (s : Engine) :
    (syncMirror N s).total = s.total := rfl

theorem syncMirror_length (N : Nat) (hN : 3 ≤ N) (s : Engine)
    (hD : s.D.length = 3 * N) : (syncMirror N s).D.length = 3 * N := by
  show (memcpySeg (2 * N - 1) 0 (N - 1) (memcpySeg N 0 (N - 1) s.D)).length = 3 * N
  rw [length_memcpySeg _ _ _ _ (by rw [length_memcpySeg] <;> omega)
      (by rw [length_memcpySeg] <;> omega),
    length_memcpySeg _ _ _ _ (by omega) (by omega), hD]

/-- The sync phase leaves the first `N` slots (the base permutation `P1`)
untouched. -/
theorem syncMirror_getD_low (N : Nat) (hN : 3 ≤ N) (s : Engine)
    (hD : s.D.length = 3 * N) (j : Nat) (hj : j < N) :
    (syncMirror N s).D.getD j 0 = s.D.getD j 0 := by
  show (memcpySeg (2 * N - 1) 0 (N - 1) (memcpySeg N 0 (N - 1) s.D)).getD j 0
      = s.D.getD j 0
  rw [getD_memcpySeg _ _ _ _ (by rw [length_memcpySeg] <;> omega)
      (by rw [length_memcpySeg] <;> omega),
    if_pos (by omega),
    getD_memcpySeg _ _ _ _ (by omega) (by omega), if_pos hj]

theorem syncMirror_take (N : Nat) (hN : 3 ≤ N) (s : Engine)
    (hD : s.D.length = 3 * N) :
    (syncMirror N s).D.take (N - 1) = s.D.take (N - 1) := by
  show (memcpySeg (2 * N - 1) 0 (N - 1) (memcpySeg N 0 (N - 1) s.D)).take (N - 1)
      = s.D.take (N - 1)
  rw [take_memcpySeg _ _ _ _ _ (by omega) (by rw [length_memcpySeg] <;> omega),
    take_memcpySeg _ _ _ _ _ (by omega) (by omega)]

/-- After the sync phase the middle window `P2` mirrors the first `N - 1`
entries of `P1`. -/
theorem syncMirror_getD_mid (N : Nat) (hN : 3 ≤ N) (s : Engine)
    (hD : s.D.length = 3 * N) (j : Nat) (hj : j < N - 1) :
    (syncMirror N s).D.getD (N + j) 0 = s.D.getD j 0 := by
  show (memcpySeg (2 * N - 1) 0 (N - 1) (memcpySeg N 0 (N - 1) s.D)).getD (N + j) 0
      = s.D.getD j 0
  rw [getD_memcpySeg _ _ _ _ (by rw [length_memcpySeg] <;> omega)
      (by rw [length_memcpySeg] <;> omega),
    if_pos (by omega),
    getD_memcpySeg _ _ _ _ (by omega) (by omega), if_neg (by omega),
    if_pos (by omega)]
  have : 0 + (N + j - N) = j := by omega
  rw [this]

/-- After the sync phase the trailing window `P3` mirrors the first
`N - 1` entries of `P1`. -/
theorem syncMirror_getD_high (N : Nat) (hN : 3 ≤ N) (s : Engine)
    (hD : s.D.length = 3 * N) (j : Nat) (hj : j < N - 1) :
    (syncMirror N s).D.getD (2 * N - 1 + j) 0 = s.D.getD j 0 := by
  show (memcpySeg (2 * N - 1) 0 (N - 1)
      (memcpySeg N 0 (N - 1) s.D)).getD (2 * N - 1 + j) 0 = s.D.getD j 0
  rw [getD_memcpySeg _ _ _ _ (by rw [length_memcpySeg] <;> omega)
      (by rw [length_memcpySeg] <;> omega),
    if_neg (by omega), if_pos (by omega)]
  have : 0 + (2 * N - 1 + j - (2 * N - 1)) = j := by omega
  rw [this]
  rw [getD_memcpySeg _ _ _ _ (by omega) (by omega), if_pos (by omega)]

/-! ### One full loop body -/

/-- The loop-invariant shape of the engine state at the top of the
`while` loop: buffer lengths, the counter invariant, `P1`'s first `N-1`
entries a permutation of `{0,...,N-2}`, and `P1[N-1] = N-1`. -/
def engInv (N : Nat) (s : Engine) : Prop :=
  s.D.length = 3 * N ∧ s.C.length = N ∧ cInv N s.C ∧
  (s.D.take (N - 1)).Perm ((List.range (N - 1)).map Int.ofNat) ∧
  s.D.getD (N - 1) 0 = (N : Int) - 1

/-- Effect of one full loop body on a state satisfying the invariant:
the buffer lengths are preserved, the counter advances by one odometer
step into the weak invariant, the total grows by `N*(N-1)`, and the base
permutation keeps its shape. -/
theorem bodyStep_spec (N : Nat) (hN : 3 ≤ N) (s : Engine) (h : engInv N s) :
    (bodyStep N s).D.length = 3 * N ∧
    (bodyStep N s).C.length = N ∧
    cInvW N (bodyStep N s).C ∧
    ctrVal N (bodyStep N s).C = ctrVal N s.C + 1 ∧
    (bodyStep N s).total = s.total + (N - 1) * N ∧
    ((bodyStep N s).D.take (N - 1)).Perm ((List.range (N - 1)).map Int.ofNat) ∧
    (bodyStep N s).D.getD (N - 1) 0 = (N : Int) - 1 := by
  obtain ⟨hD, hCl, hc, hperm, hlast⟩ := h
  have hs1D : (syncMirror N s).D.length = 3 * N := syncMirror_length N hN s hD
  have hs2D : (cpBurst N (syncMirror N s)).D.length = 3 * N := by
    rw [cpBurst_length, hs1D]
  have hs2C : (cpBurst N (syncMirror N s)).C = s.C := by
    rw [cpBurst_C, syncMirror_C]
  have hs2inv : cInv N (cpBurst N (syncMirror N s)).C := by rw [hs2C]; exact hc
  have hs2take : (cpBurst N (syncMirror N s)).D.take (N - 1) = s.D.take (N - 1) := by
    rw [cpBurst_take, syncMirror_take N hN s hD]
  have hs2total : (cpBurst N (syncMirror N s)).total = s.total + (N - 1) * N := by
    rw [cpBurst_total, syncMirror_total]
  have P := ppAdvance_spec N hN (cpBurst N (syncMirror N s))
    (cpBurst N (syncMirror N s)) rfl hs2inv
  obtain ⟨pw, pv, pt, -, -, a, b, ha, hb, hDeq, -⟩ := P
  have hbody : bodyStep N s = ppAdvance N (cpBurst N (syncMirror N s)) := rfl
  rw [hbody]
  have hDlen : (ppAdvance N (cpBurst N (syncMirror N s))).D.length = 3 * N := by
    rw [hDeq, List.length_set, length_swapAt, hs2D]
  refine ⟨hDlen, pw.1, pw, by rw [pv, hs2C], by rw [pt, hs2total], ?_, ?_⟩
  · have hmin : ∀ (l : List Int), (l.take (N - 1)).length ≤ N - 1 := by
      intro l
      rw [List.length_take]
      exact Nat.min_le_left _ _
    rw [hDeq, List.set_take, List.set_eq_of_length_le (hmin _),
      take_swapAt _ _ _ _ ha hb, hs2take]
    have hlt : (s.D.take (N - 1)).length = N - 1 := by
      rw [List.length_take]
      omega
    exact (swapAt_perm (s.D.take (N - 1)) a b (by omega) (by omega)).trans hperm
  · rw [hDeq]
    exact getD_set_self _ _ _ (by rw [length_swapAt, hs2D]; omega)

/-! ### The master loop invariant -/

theorem getD_replicate_zero (n j : Nat) :
    (List.replicate n (0 : Int)).getD j 0 = 0 := by
  rw [List.getD_eq_getElem?_getD, List.getElem?_replicate]
  by_cases h : j < n
  · rw [if_pos h]; rfl
  · rw [if_neg h]; rfl

theorem initEngine_D_length (N : Nat) : (initEngine N).D.length = 3 * N := by
  show ((List.range N).map Int.ofNat ++ List.replicate (2 * N) 0).length = 3 * N
  simp
  omega

theorem initEngine_C_length (N : Nat) : (initEngine N).C.length = N := by
  show (List.replicate N (0 : Int)).length = N
  simp

theorem initEngine_C_getD (N j : Nat) : (initEngine N).C.getD j 0 = 0 :=
  getD_replicate_zero N j

theorem initEngine_ctrVal (N : Nat) (hN : 3 ≤ N) :
    ctrVal N (initEngine N).C = 0 := by
  rw [ctrVal_eq_sum N hN]
  apply Finset.sum_eq_zero
  intro j hj
  rw [initEngine_C_getD]
  ring

theorem initEngine_cInv (N : Nat) : cInv N (initEngine N).C := by
  refine ⟨initEngine_C_length N, ?_, ?_⟩
  · intro j hj
    rw [initEngine_C_getD]
    constructor
    · exact le_refl 0
    · exact_mod_cast Int.ofNat_nonneg j
  · intro j hj
    exact initEngine_C_getD N j

theorem initEngine_take (N : Nat) (hN : 3 ≤ N) :
    (initEngine N).D.take (N - 1) = (List.range (N - 1)).map Int.ofNat := by
  show (((List.range N).map Int.ofNat ++ List.replicate (2 * N) 0)).take (N - 1)
      = (List.range (N - 1)).map Int.ofNat
  rw [List.take_append_of_le_length (by simp), ← List.map_take,
    List.take_range, min_eq_left (by omega : N - 1 ≤ N)]

theorem initEngine_last (N : Nat) (hN : 3 ≤ N) :
    (initEngine N).D.getD (N - 1) 0 = (N : Int) - 1 := by
  show (((List.range N).map Int.ofNat ++ List.replicate (2 * N) 0)).getD (N - 1) 0
      = (N : Int) - 1
  rw [List.getD_eq_getElem?_getD,
    List.getElem?_append_left (by simp; omega),
    List.getElem?_map, List.getElem?_range (by omega)]
  show ((N - 1 : Nat) : Int) = (N : Int) - 1
  omega

/-- The master invariant: after `k` loop iterations (for `k` up to
`(N-2)!`), the counter is the odometer representation of `k`, the total
is `k * N * (N-1)`, and the base permutation keeps its shape. -/
theorem engineAt_master (N : Nat) (hN : 3 ≤ N) :
    ∀ k, k ≤ Nat.factorial (N - 2) →
    (engineAt N k).D.length = 3 * N ∧
    (engineAt N k).C.length = N ∧
    cInvW N (engineAt N k).C ∧
    ctrVal N (engineAt N k).C = (k : Int) ∧
    (engineAt N k).total = k * ((N - 1) * N) ∧
    ((engineAt N k).D.take (N - 1)).Perm ((List.range (N - 1)).map Int.ofNat) ∧
    (engineAt N k).D.getD (N - 1) 0 = (N : Int) - 1 := by
  intro k
  induction k with
  | zero =>
      intro hk
      rw [engineAt_zero]
      refine ⟨initEngine_D_length N, initEngine_C_length N, ?_,
        by rw [initEngine_ctrVal N hN]; rfl, by simp [initEngine],
        by rw [initEngine_take N hN], initEngine_last N hN⟩
      have hc := initEngine_cInv N
      refine ⟨hc.1, fun j h1 hj => hc.2.1 j hj, hc.2.2, ?_⟩
      rw [initEngine_C_getD]
      omega
  | succ k ih =>
      intro hk
      have hk' : k ≤ Nat.factorial (N - 2) := by omega
      obtain ⟨iD, iC, iw, iv, it, ip, il⟩ := ih hk'
      -- at a non-final iteration the guard is live and the counter is in
      -- the strong invariant
      have hlt : ctrVal N (engineAt N k).C < (Nat.factorial (N - 2) : Int) := by
        rw [iv]
        exact_mod_cast Nat.lt_of_lt_of_le (Nat.lt_succ_self k) hk
      have h0 : (engineAt N k).C.getD 0 0 = 0 :=
        ((cInvW_c0_iff N hN _ iw).1).2 hlt
      have hcinv : cInv N (engineAt N k).C := cInvW_to_cInv N _ iw h0
      have hguard : liveGuard (engineAt N k) := by
        unfold liveGuard
        omega
      have hstep : engineAt N (k + 1) = bodyStep N (engineAt N k) := by
        rw [engineAt_succ, if_pos hguard]
      have B := bodyStep_spec N hN (engineAt N k) ⟨iD, iC, hcinv, ip, il⟩
      obtain ⟨b1, b2, b3, b4, b5, b6, b7⟩ := B
      rw [hstep]
      refine ⟨b1, b2, b3, ?_, ?_, b6, b7⟩
      · rw [b4, iv]
        push_cast
        ring
      · rw [b5, it]
        ring

/-- At every iteration strictly before `(N-2)!` the loop guard is live
(`C_PP[0] = 0`). -/
theorem engineAt_live (N : Nat) (hN : 3 ≤ N) (k : Nat)
    (hk : k < Nat.factorial (N - 2)) : (engineAt N k).C.getD 0 0 = 0 := by
  obtain ⟨-, -, iw, iv, -, -, -⟩ := engineAt_master N hN k (le_of_lt hk)
  exact ((cInvW_c0_iff N hN _ iw).1).2 (by rw [iv]; exact_mod_cast hk)

/-- After exactly `(N-2)!` iterations the counter has overflowed:
`C_PP[0] = 1`, which makes the loop guard fail. -/
theorem engineAt_final_c0 (N : Nat) (hN : 3 ≤ N) :
    (engineAt N (Nat.factorial (N - 2))).C.getD 0 0 = 1 := by
  obtain ⟨-, -, iw, iv, -, -, -⟩ :=
    engineAt_master N hN (Nat.factorial (N - 2)) (le_refl _)
  exact ((cInvW_c0_iff N hN _ iw).2).2 (by rw [iv])

/-- Once the guard has failed the state never changes again: the loop
has terminated after exactly `(N-2)!` iterations. -/
theorem engineAt_frozen (N : Nat) (hN : 3 ≤ N) (j : Nat) :
    engineAt N (Nat.factorial (N - 2) + j) = engineAt N (Nat.factorial (N - 2)) := by
  induction j with
  | zero => rfl
  | succ j ih =>
      have : Nat.factorial (N - 2) + (j + 1)
          = (Nat.factorial (N - 2) + j) + 1 := rfl
      rw [this, engineAt_succ, ih, if_neg]
      unfold liveGuard
      rw [engineAt_final_c0 N hN]
      omega

/-! ### The variant program with the P3 memcpy removed (claim C10) -/

/-- Variant sync phase: only `memcpy(P2, P1, (N-1)*sizeof(int));`, the
`P3` memcpy removed. -/
def syncMirrorNoP3 (N : Nat) (s : Engine) : Engine :=
  { s with D := memcpySeg N 0 (N - 1) s.D }

/-- Variant loop body: like `bodyStep` but with the `P3` memcpy removed. -/
def bodyStepNoP3 (N : Nat) (s : Engine) : Engine :=
  ppAdvance N (cpBurst N (syncMirrorNoP3 N s))

/-- The variant program's state after `k` loop iterations. -/
def engineAtNoP3 (N k : Nat) : Engine :=
  runLoopWith (bodyStepNoP3 N) k (initEngine N)

/-- Simulation relation between the original and the variant: identical
counters, totals and buffer lengths, and identical `Circle_D` below
index `2N - 1` (`P1` and the middle window). -/
def relNoP3 (N : Nat) (s t : Engine) : Prop :=
  t.C = s.C ∧ t.total = s.total ∧ s.D.length = 3 * N ∧ t.D.length = 3 * N ∧
  ∀ j, j < 2 * N - 1 → t.D.getD j 0 = s.D.getD j 0

theorem relNoP3_set (N : Nat) (u v : List Int) (hul : u.length = 3 * N)
    (hvl : v.length = 3 * N) (hp : ∀ j, j < 2 * N - 1 → v.getD j 0 = u.getD j 0)
    (i : Nat) (x : Int) (j : Nat) (hj : j < 2 * N - 1) :
    (v.set i x).getD j 0 = (u.set i x).getD j 0 := by
  rw [getD_set, getD_set, hul, hvl]
  by_cases hij : i = j ∧ i < 3 * N
  · rw [if_pos hij, if_pos hij]
  · rw [if_neg hij, if_neg hij]
    exact hp j hj

/-- One loop body preserves the simulation relation (given the counter
invariant, which controls the swap indices of the PP phase). -/
theorem relNoP3_step (N : Nat) (hN : 3 ≤ N) (s t : Engine)
    (hrel : relNoP3 N s t) (hinv : cInv N s.C) :
    relNoP3 N (bodyStep N s) (bodyStepNoP3 N t) := by
  obtain ⟨hC, hT, hsl, htl, hp⟩ := hrel
  -- sync phase
  have hs1l : (syncMirror N s).D.length = 3 * N := syncMirror_length N hN s hsl
  have ht1l : (syncMirrorNoP3 N t).D.length = 3 * N := by
    show (memcpySeg N 0 (N - 1) t.D).length = 3 * N
    rw [length_memcpySeg _ _ _ _ (by omega) (by omega), htl]
  have hs1p : ∀ j, j < 2 * N - 1 →
      (syncMirrorNoP3 N t).D.getD j 0 = (syncMirror N s).D.getD j 0 := by
    intro j hj
    show (memcpySeg N 0 (N - 1) t.D).getD j 0
        = (memcpySeg (2 * N - 1) 0 (N - 1) (memcpySeg N 0 (N - 1) s.D)).getD j 0
    rw [getD_memcpySeg N 0 (N - 1) t.D (by omega) (by omega),
      getD_memcpySeg (2 * N - 1) 0 (N - 1) _
        (by rw [length_memcpySeg _ _ _ _ (by omega) (by omega)]; omega)
        (by rw [length_memcpySeg _ _ _ _ (by omega) (by omega)]; omega),
      if_pos hj,
      getD_memcpySeg N 0 (N - 1) s.D (by omega) (by omega)]
    by_cases h1 : j < N
    · rw [if_pos h1, if_pos h1]
      exact hp j (by omega)
    · rw [if_neg h1, if_neg h1, if_pos (by omega), if_pos (by omega)]
      exact hp _ (by omega)
  -- burst phase: fold the relation through the index list
  have hburst : ∀ (il : List Nat), (∀ ci ∈ il, ci < N - 1) →
      ∀ (u v : Engine), v.C = u.C → v.total = u.total →
        u.D.length = 3 * N → v.D.length = 3 * N →
        (∀ j, j < 2 * N - 1 → v.D.getD j 0 = u.D.getD j 0) →
        (il.foldl (burstStep N) v).C = (il.foldl (burstStep N) u).C ∧
        (il.foldl (burstStep N) v).total = (il.foldl (burstStep N) u).total ∧
        (il.foldl (burstStep N) u).D.length = 3 * N ∧
        (il.foldl (burstStep N) v).D.length = 3 * N ∧
        (∀ j, j < 2 * N - 1 →
          (il.foldl (burstStep N) v).D.getD j 0
            = (il.foldl (burstStep N) u).D.getD j 0) := by
    intro il
    induction il with
    | nil => intro hmem u v h1 h2 h3 h4 h5; exact ⟨h1, h2, h3, h4, h5⟩
    | cons a rest ih =>
        intro hmem u v h1 h2 h3 h4 h5
        have ha : a < N - 1 := hmem a (List.mem_cons_self a rest)
        rw [List.foldl_cons, List.foldl_cons]
        apply ih (fun ci hci => hmem ci (List.mem_cons_of_mem a hci))
        · show v.C = u.C; exact h1
        · show v.total + N = u.total + N; rw [h2]
        · show ((u.D.set (N - 1 + a) _).set (N + a) _).length = 3 * N
          simp [h3]
        · show ((v.D.set (N - 1 + a) _).set (N + a) _).length = 3 * N
          simp [h4]
        · intro j hj
          show ((v.D.set (N - 1 + a) (v.D.getD (N + a) 0)).set (N + a) _).getD j 0
              = ((u.D.set (N - 1 + a) (u.D.getD (N + a) 0)).set (N + a) _).getD j 0
          have hread : v.D.getD (N + a) 0 = u.D.getD (N + a) 0 :=
            h5 (N + a) (by omega)
          rw [hread]
          apply relNoP3_set N _ _ (by simp [h3]) (by simp [h4]) _ _ _ _ hj
          intro j2 hj2
          exact relNoP3_set N u.D v.D h3 h4 h5 _ _ j2 hj2
  have hb := hburst (List.range (N - 1)) (fun ci hci => List.mem_range.mp hci)
    (syncMirror N s) (syncMirrorNoP3 N t)
    (by show t.C = s.C; exact hC) (by show t.total = s.total; exact hT)
    hs1l ht1l hs1p
  obtain ⟨hbC, hbT, hbl1, hbl2, hbp⟩ := hb
  have hcb1 : (List.range (N - 1)).foldl (burstStep N) (syncMirror N s)
      = cpBurst N (syncMirror N s) := rfl
  have hcb2 : (List.range (N - 1)).foldl (burstStep N) (syncMirrorNoP3 N t)
      = cpBurst N (syncMirrorNoP3 N t) := rfl
  simp only [hcb1, hcb2] at hbC hbT hbl1 hbl2 hbp
  -- PP phase
  have hs2C : (cpBurst N (syncMirror N s)).C = s.C := by
    rw [cpBurst_C]; rfl
  have hinv2 : cInv N (cpBurst N (syncMirror N s)).C := by rw [hs2C]; exact hinv
  have P := ppAdvance_spec N hN (cpBurst N (syncMirror N s))
    (cpBurst N (syncMirrorNoP3 N t)) hbC hinv2
  obtain ⟨-, -, pt1, pt2, pC, a, b, ha, hb2, hD1, hD2⟩ := P
  refine ⟨pC, ?_, ?_, ?_, ?_⟩
  · show (bodyStepNoP3 N t).total = (bodyStep N s).total
    unfold bodyStepNoP3 bodyStep
    rw [pt1, pt2, hbT]
  · show (bodyStep N s).D.length = 3 * N
    unfold bodyStep
    rw [hD1, List.length_set, length_swapAt]
    exact hbl1
  · show (bodyStepNoP3 N t).D.length = 3 * N
    unfold bodyStepNoP3
    rw [hD2, List.length_set, length_swapAt]
    exact hbl2
  · intro j hj
    show (bodyStepNoP3 N t).D.getD j 0 = (bodyStep N s).D.getD j 0
    unfold bodyStepNoP3 bodyStep
    rw [hD1, hD2]
    apply relNoP3_set N _ _ (by rw [length_swapAt]; exact hbl1)
      (by rw [length_swapAt]; exact hbl2) _ _ _ _ hj
    intro j2 hj2
    unfold swapAt
    have hga : (cpBurst N (syncMirrorNoP3 N t)).D.getD a 0
        = (cpBurst N (syncMirror N s)).D.getD a 0 := hbp a (by omega)
    have hgb : (cpBurst N (syncMirrorNoP3 N t)).D.getD b 0
        = (cpBurst N (syncMirror N s)).D.getD b 0 := hbp b (by omega)
    rw [hga, hgb]
    apply relNoP3_set N _ _ (by simp [hbl1]) (by simp [hbl2]) _ _ _ _ hj2
    intro j3 hj3
    exact relNoP3_set N _ _ hbl1 hbl2 hbp _ _ _ hj3

theorem take_eq_of_getD (u v : List Int) (n : Nat) (hu : n ≤ u.length)
    (hv : n ≤ v.length) (hp : ∀ j, j < n → u.getD j 0 = v.getD j 0) :
    u.take n = v.take n := by
  apply List.ext_getElem?
  intro j
  rw [List.getElem?_take, List.getElem?_take]
  by_cases hj : j < n
  · rw [if_pos hj, if_pos hj,
      List.getElem?_eq_getElem (by omega), List.getElem?_eq_getElem (by omega)]
    have h1 := hp j hj
    rw [List.getD_eq_getElem u 0 (by omega), List.getD_eq_getElem v 0 (by omega)]
      at h1
    rw [h1]
  · rw [if_neg hj, if_neg hj]

/-- The simulation relation holds at every iteration up to termination. -/
theorem engineAtNoP3_rel (N : Nat) (hN : 3 ≤ N) :
    ∀ k, k ≤ Nat.factorial (N - 2) →
      relNoP3 N (engineAt N k) (engineAtNoP3 N k) := by
  intro k
  induction k with
  | zero =>
      intro hk
      exact ⟨rfl, rfl, initEngine_D_length N, initEngine_D_length N,
        fun j hj => rfl⟩
  | succ k ih =>
      intro hk
      have hrel := ih (by omega)
      have h0 : (engineAt N k).C.getD 0 0 = 0 := engineAt_live N hN k (by omega)
      obtain ⟨-, -, iw, -, -, -, -⟩ := engineAt_master N hN k (by omega)
      have hinv : cInv N (engineAt N k).C := cInvW_to_cInv N _ iw h0
      have hg1 : liveGuard (engineAt N k) := by unfold liveGuard; omega
      have hg2 : (engineAtNoP3 N k).C.getD 0 0 < 1 := by
        rw [hrel.1, h0]
        omega
      have hstep1 : engineAt N (k + 1) = bodyStep N (engineAt N k) := by
        rw [engineAt_succ, if_pos hg1]
      have hstep2 : engineAtNoP3 N (k + 1) = bodyStepNoP3 N (engineAtNoP3 N k) := by
        show runLoopWith (bodyStepNoP3 N) (k + 1) (initEngine N) = _
        rw [runLoopWith_succ]
        have hun : runLoopWith (bodyStepNoP3 N) k (initEngine N)
            = engineAtNoP3 N k := rfl
        rw [hun, if_pos hg2]
      rw [hstep1, hstep2]
      exact relNoP3_step N hN _ _ hrel hinv

/-- The variant program also freezes after `(N-2)!` iterations. -/
theorem engineAtNoP3_frozen (N : Nat) (hN : 3 ≤ N) (j : Nat) :
    engineAtNoP3 N (Nat.factorial (N - 2) + j)
      = engineAtNoP3 N (Nat.factorial (N - 2)) := by
  have hg : ¬ (engineAtNoP3 N (Nat.factorial (N - 2))).C.getD 0 0 < 1 := by
    have hrel := engineAtNoP3_rel N hN (Nat.factorial (N - 2)) (le_refl _)
    rw [hrel.1, engineAt_final_c0 N hN]
    omega
  induction j with
  | zero => rfl
  | succ j ih =>
      have he : Nat.factorial (N - 2) + (j + 1)
          = (Nat.factorial (N - 2) + j) + 1 := rfl
      show runLoopWith (bodyStepNoP3 N) (Nat.factorial (N - 2) + (j + 1))
          (initEngine N) = _
      rw [he, runLoopWith_succ]
      have ihe : runLoopWith (bodyStepNoP3 N) (Nat.factorial (N - 2) + j)
          (initEngine N) = engineAtNoP3 N (Nat.factorial (N - 2)) := ih
      rw [ihe, if_neg hg]

/-! ### The base-advance rule as claim C4 words it -/

/-- The base-advance step exactly as claim C4 describes it: increment at
`i = N-3`, the carry loop, then — only if the counter has not overflowed
(`C[0] < 1`) — the guarded swap AND the restoration `P[N-1] = N-1`, both
inside the conditional.  (This differs from the source, where
`P1[lastIndex] = lastIndex;` sits after the closing brace of the `if`.) -/
def ppAdvanceClaimed (N : Nat) (s : Engine) : Engine :=
  let i0 := N - 3
  let c1 := s.C.set i0 (s.C.getD i0 0 + 1)
  let r := carryLoop i0 s.D c1
  let i := r.1
  let d1 := r.2.1
  let c2 := r.2.2
  let d2 :=
    if c2.getD 0 0 < 1 then
      let target : Int := c2.getD i 0 - 1
      (if 0 ≤ target then swapAt d1 i target.toNat else d1).set (N - 1)
        ((N : Int) - 1)
    else d1
  { D := d2, C := c2, total := s.total }

/-- The amended base-advance rule: as claim C4 describes it except that
the restoration `P[N-1] = N-1` is unconditional, performed after the
conditional guarded swap whether or not the counter overflowed. -/
def ppAdvanceAmended (N : Nat) (s : Engine) : Engine :=
  let i0 := N - 3
  let c1 := s.C.set i0 (s.C.getD i0 0 + 1)
  let r := carryLoop i0 s.D c1
  let i := r.1
  let d1 := r.2.1
  let c2 := r.2.2
  let d2 :=
    if c2.getD 0 0 < 1 then
      let target : Int := c2.getD i 0 - 1
      if 0 ≤ target then swapAt d1 i target.toNat else d1
    else d1
  let d3 := d2.set (N - 1) ((N : Int) - 1)
  { D := d3, C := c2, total := s.total }

/-! ### The loop body with bounds-checked (Option-returning) accesses -/

/-- Bounds-checked write: `none` when the index is out of range. -/
def csetL (l : List Int) (i : Nat) (v : Int) : Option (List Int) :=
  if i < l.length then some (l.set i v) else none

/-- Bounds-checked `memcpy`: `none` unless both regions lie inside the
array. -/
def cmemcpy (dst src n : Nat) (l : List Int) : Option (List Int) :=
  if dst + n ≤ l.length ∧ src + n ≤ l.length then some (memcpySeg dst src n l)
  else none

/-- Bounds-checked three-assignment swap. -/
def cswapL (l : List Int) (a b : Nat) : Option (List Int) := do
  let x ← l.get? a
  let y ← l.get? b
  let l1 ← csetL l a y
  csetL l1 b x

/-- Bounds-checked phase [1]. -/
def csyncMirror (N : Nat) (s : Engine) : Option Engine := do
  let dA ← cmemcpy N 0 (N - 1) s.D
  let dB ← cmemcpy (2 * N - 1) 0 (N - 1) dA
  some { s with D := dB }

/-- Bounds-checked single burst step. -/
def cburstStep (N : Nat) (s : Engine) (ci : Nat) : Option Engine := do
  let v ← s.D.get? (N + ci)
  let d1 ← csetL s.D (N - 1 + ci) v
  let d2 ← csetL d1 (N + ci) ((N : Int) - 1)
  some { D := d2, C := s.C, total := s.total + N }

/-- Bounds-checked phase [2]. -/
def cburst (N : Nat) (s : Engine) : Option Engine :=
  (List.range (N - 1)).foldlM (cburstStep N) s

/-- Bounds-checked carry loop; a negative swap target is an
out-of-bounds access. -/
def ccarryLoop : Nat → List Int → List Int → Option (Nat × List Int × List Int)
  | 0, d, c => some (0, d, c)
  | i + 1, d, c => do
      let cv ← c.get? (i + 1)
      if cv > ((i : Int) + 1) then
        if 0 ≤ cv - 1 then do
          let d1 ← cswapL d (i + 1) (cv - 1).toNat
          let c1 ← csetL c (i + 1) 0
          let cp ← c1.get? i
          let c2 ← csetL c1 i (cp + 1)
          ccarryLoop i d1 c2
        else none
      else some (i + 1, d, c)

/-- Bounds-checked phase [3]. -/
def cppAdvance (N : Nat) (s : Engine) : Option Engine := do
  let i0 := N - 3
  let cv ← s.C.get? i0
  let c1 ← csetL s.C i0 (cv + 1)
  let r ← ccarryLoop i0 s.D c1
  let cz ← r.2.2.get? 0
  let d2 ←
    if cz < 1 then do
      let civ ← r.2.2.get? r.1
      if 0 ≤ civ - 1 then cswapL r.2.1 r.1 (civ - 1).toNat else some r.2.1
    else some r.2.1
  let d3 ← csetL d2 (N - 1) ((N : Int) - 1)
  some { D := d3, C := r.2.2, total := s.total }

/-- The full bounds-checked loop body. -/
def cbodyStep (N : Nat) (s : Engine) : Option Engine := do
  let s1 ← csyncMirror N s
  let s2 ← cburst N s1
  cppAdvance N s2

/-! ### The checked body never goes out of bounds on reachable states -/

theorem get?_eq_some_getD (l : List Int) (i : Nat) (h : i < l.length) :
    l.get? i = some (l.getD i 0) := by
  rw [List.get?_eq_getElem?, List.getElem?_eq_getElem h,
    List.getD_eq_getElem l 0 h]

theorem csetL_eq (l : List Int) (i : Nat) (v : Int) (h : i < l.length) :
    csetL l i v = some (l.set i v) := by
  unfold csetL
  rw [if_pos h]

theorem cswapL_eq (l : List Int) (a b : Nat) (ha : a < l.length)
    (hb : b < l.length) : cswapL l a b = some (swapAt l a b) := by
  unfold cswapL
  rw [get?_eq_some_getD l a ha, get?_eq_some_getD l b hb]
  simp only [Option.bind_eq_bind, Option.some_bind]
  rw [csetL_eq l a _ ha, Option.some_bind,
    csetL_eq _ b _ (by rw [List.length_set]; exact hb)]
  rfl

theorem csyncMirror_eq (N : Nat) (hN : 3 ≤ N) (s : Engine)
    (hD : s.D.length = 3 * N) : csyncMirror N s = some (syncMirror N s) := by
  unfold csyncMirror cmemcpy
  rw [if_pos (by omega : N + (N - 1) ≤ s.D.length ∧ 0 + (N - 1) ≤ s.D.length)]
  simp only [Option.bind_eq_bind, Option.some_bind]
  rw [if_pos]
  · rfl
  · rw [length_memcpySeg _ _ _ _ (by omega) (by omega)]
    omega

theorem cburstStep_eq (N : Nat) (s : Engine) (ci : Nat) (hci : ci < N - 1)
    (hD : s.D.length = 3 * N) : cburstStep N s ci = some (burstStep N s ci) := by
  unfold cburstStep
  rw [get?_eq_some_getD s.D (N + ci) (by omega)]
  simp only [Option.bind_eq_bind, Option.some_bind]
  rw [csetL_eq s.D (N - 1 + ci) _ (by omega), Option.some_bind,
    csetL_eq _ (N + ci) _ (by rw [List.length_set]; omega)]
  rfl

theorem cburst_eq_aux (N : Nat) (il : List Nat) :
    ∀ s : Engine, (∀ ci ∈ il, ci < N - 1) → s.D.length = 3 * N →
      il.foldlM (cburstStep N) s = some (il.foldl (burstStep N) s) := by
  induction il with
  | nil => intro s hmem hD; rfl
  | cons a rest ih =>
      intro s hmem hD
      have ha : a < N - 1 := hmem a (List.mem_cons_self a rest)
      rw [List.foldlM_cons, cburstStep_eq N s a ha hD]
      simp only [Option.bind_eq_bind, Option.some_bind]
      rw [List.foldl_cons]
      apply ih _ (fun ci hci => hmem ci (List.mem_cons_of_mem a hci))
      show ((s.D.set (N - 1 + a) _).set (N + a) _).length = 3 * N
      simp [hD]

theorem cburst_eq (N : Nat) (s : Engine) (hD : s.D.length = 3 * N) :
    cburst N s = some (cpBurst N s) :=
  cburst_eq_aux N (List.range (N - 1)) s
    (fun ci hci => List.mem_range.mp hci) hD

/-- On states satisfying the carry-loop preconditions the checked carry
loop performs no out-of-bounds access and agrees with the unchecked
one. -/
theorem ccarryLoop_eq (N : Nat) (hN : 3 ≤ N) :
    ∀ (i : Nat) (d c : List Int), i ≤ N - 3 → c.length = N →
      d.length = 3 * N →
      (∀ j, j < i → 0 ≤ c.getD j 0 ∧ c.getD j 0 ≤ (j : Int)) →
      0 ≤ c.getD i 0 → c.getD i 0 ≤ (i : Int) + 1 →
      ccarryLoop i d c = some (carryLoop i d c) := by
  intro i
  induction i with
  | zero => intro d c hi hc hd hlow h0 h1; rfl
  | succ i ih =>
      intro d c hi hc hd hlow h0 h1
      rw [carryLoop_succ_eq]
      show (do
        let cv ← c.get? (i + 1)
        if cv > ((i : Int) + 1) then
          if 0 ≤ cv - 1 then do
            let d1 ← cswapL d (i + 1) (cv - 1).toNat
            let c1 ← csetL c (i + 1) 0
            let cp ← c1.get? i
            let c2 ← csetL c1 i (cp + 1)
            ccarryLoop i d1 c2
          else none
        else some (i + 1, d, c)) = _
      rw [get?_eq_some_getD c (i + 1) (by omega)]
      simp only [Option.bind_eq_bind, Option.some_bind]
      by_cases hif : c.getD (i + 1) 0 > ((i : Int) + 1)
      · rw [if_pos hif, if_pos hif, if_pos (by omega)]
        have hval : c.getD (i + 1) 0 = (i : Int) + 2 := by omega
        have htg : ((c.getD (i + 1) 0 - 1).toNat) = i + 1 := by
          rw [hval]; omega
        rw [cswapL_eq d (i + 1) _ (by omega) (by rw [htg]; omega)]
        simp only [Option.some_bind]
        rw [csetL_eq c (i + 1) 0 (by omega)]
        simp only [Option.some_bind]
        rw [get?_eq_some_getD _ i (by rw [List.length_set]; omega)]
        simp only [Option.some_bind]
        rw [csetL_eq _ i _ (by rw [List.length_set]; omega)]
        simp only [Option.some_bind]
        apply ih
        · omega
        · simp [hc]
        · rw [length_swapAt, hd]
        · intro j hj
          rw [getD_set_ne _ _ _ _ (by omega), getD_set_ne _ _ _ _ (by omega)]
          exact hlow j (by omega)
        · rw [getD_set_self _ _ _ (by rw [List.length_set]; omega),
            getD_set_ne _ _ _ _ (by omega)]
          have := hlow i (by omega)
          omega
        · rw [getD_set_self _ _ _ (by rw [List.length_set]; omega),
            getD_set_ne _ _ _ _ (by omega)]
          have := hlow i (by omega)
          omega
      · rw [if_neg hif, if_neg hif]

/-- Rewriting of `ppAdvance` as an explicit structure literal, given the carry loop
result. -/
theorem ppAdvance_struct (N : Nat) (s : Engine) (i' : Nat) (d1 c2 : List Int)
    (hr : carryLoop (N - 3) s.D (s.C.set (N - 3) (s.C.getD (N - 3) 0 + 1))
      = (i', d1, c2)) :
    ppAdvance N s =
      { D := (if c2.getD 0 0 < 1 then
            if 0 ≤ c2.getD i' 0 - 1 then swapAt d1 i' ((c2.getD i' 0 - 1).toNat)
            else d1
          else d1).set (N - 1) ((N : Int) - 1)
        C := c2
        total := s.total } := by
  simp only [ppAdvance]
  rw [hr]

/-- On a reachable loop state the checked PP advance performs no
out-of-bounds access and agrees with the unchecked one. -/
theorem cppAdvance_eq (N : Nat) (hN : 3 ≤ N) (s : Engine) (hinv : cInv N s.C)
    (hD : s.D.length = 3 * N) : cppAdvance N s = some (ppAdvance N s) := by
  obtain ⟨hlen, hdig, hhigh⟩ := hinv
  have hi0N : N - 3 < s.C.length := by omega
  have hc1len : (s.C.set (N - 3) (s.C.getD (N - 3) 0 + 1)).length = N := by
    rw [List.length_set]; exact hlen
  have hc1low : ∀ j, j < N - 3 →
      0 ≤ (s.C.set (N - 3) (s.C.getD (N - 3) 0 + 1)).getD j 0 ∧
      (s.C.set (N - 3) (s.C.getD (N - 3) 0 + 1)).getD j 0 ≤ (j : Int) := by
    intro j hj
    rw [getD_set_ne _ _ _ _ (by omega)]
    exact hdig j (by omega)
  have htop := hdig (N - 3) (le_refl _)
  have hc1top : (s.C.set (N - 3) (s.C.getD (N - 3) 0 + 1)).getD (N - 3) 0
      = s.C.getD (N - 3) 0 + 1 := getD_set_self _ _ _ hi0N
  have hc1ne : ∀ j, j ≠ N - 3 →
      (s.C.set (N - 3) (s.C.getD (N - 3) 0 + 1)).getD j 0 = s.C.getD j 0 := by
    intro j hj
    exact getD_set_ne _ _ _ _ (Ne.symm (by omega))
  obtain ⟨i', d1, c2, hr⟩ :
      ∃ u v w, carryLoop (N - 3) s.D (s.C.set (N - 3) (s.C.getD (N - 3) 0 + 1))
        = (u, v, w) := ⟨_, _, _, rfl⟩
  have K := carryLoop_spec N hN (N - 3) s.D
    (s.C.set (N - 3) (s.C.getD (N - 3) 0 + 1)) (le_refl _) hc1len hc1low
    (by rw [hc1top]; omega) (by rw [hc1top]; push_cast; omega)
  rw [hr] at K
  dsimp only at K
  obtain ⟨k1, k2, k3, k4, k5, k6, k7, k8, k9⟩ := K
  have hd1 : d1.length = 3 * N := by rw [k1, hD]
  -- the digit the loop rests on is at most N - 2 after the increment
  have hmax : c2.getD i' 0 ≤ (N : Int) - 2 := by
    rcases k6 with ⟨e1, e2⟩ | ⟨l1, l2⟩
    · rw [e2, e1, hc1top]
      have hc : ((N - 3 : Nat) : Int) = (N : Int) - 3 := by omega
      rw [hc] at htop
      omega
    · rw [l2, hc1ne i' (by omega)]
      have := hdig i' (by omega)
      have hc : ((i' : Nat) : Int) ≤ (N : Int) - 3 := by
        have : (i' : Int) ≤ ((N - 3 : Nat) : Int) := by exact_mod_cast le_of_lt l1
        omega
      omega
  simp only [cppAdvance]
  rw [get?_eq_some_getD s.C (N - 3) (by omega)]
  simp only [Option.bind_eq_bind, Option.some_bind]
  rw [csetL_eq s.C (N - 3) _ (by omega)]
  simp only [Option.some_bind]
  rw [ccarryLoop_eq N hN (N - 3) s.D _ (le_refl _) hc1len hD hc1low
    (by rw [hc1top]; omega) (by rw [hc1top]; omega), hr]
  simp only [Option.some_bind]
  rw [get?_eq_some_getD c2 0 (by omega)]
  simp only [Option.some_bind]
  rw [ppAdvance_struct N s i' d1 c2 hr]
  by_cases hg : c2.getD 0 0 < 1
  · rw [if_pos hg, if_pos hg]
    rw [get?_eq_some_getD c2 i' (by omega)]
    simp only [Option.some_bind]
    by_cases htg : (0 : Int) ≤ c2.getD i' 0 - 1
    · rw [if_pos htg, if_pos htg,
        cswapL_eq d1 i' _ (by omega) (by omega)]
      simp only [Option.some_bind]
      rw [csetL_eq _ (N - 1) _ (by rw [length_swapAt]; omega)]
      rfl
    · rw [if_neg htg, if_neg htg]
      rw [csetL_eq d1 (N - 1) _ (by omega)]
      rfl
  · rw [if_neg hg, if_neg hg]
    rw [csetL_eq d1 (N - 1) _ (by omega)]
    rfl

/-- Claim C8's content: from every reachable live loop state, the fully
bounds-checked loop body succeeds (never reaches the out-of-bounds
branch) and computes exactly the unchecked body. -/
theorem cbodyStep_eq (N : Nat) (hN : 3 ≤ N) (s : Engine) (hinv : cInv N s.C)
    (hD : s.D.length = 3 * N) : cbodyStep N s = some (bodyStep N s) := by
  unfold cbodyStep
  rw [csyncMirror_eq N hN s hD]
  simp only [Option.bind_eq_bind, Option.some_bind]
  rw [cburst_eq N _ (syncMirror_length N hN s hD)]
  simp only [Option.some_bind]
  have hC : (cpBurst N (syncMirror N s)).C = s.C := by
    rw [cpBurst_C]; rfl
  exact cppAdvance_eq N hN _ (by rw [hC]; exact hinv)
    (by rw [cpBurst_length]; exact syncMirror_length N hN s hD)

/-! ### Remaining helper lemmas for the claim theorems -/

theorem engineAt_D_length (N : Nat) (hN : 3 ≤ N) (k : Nat) :
    (engineAt N k).D.length = 3 * N := by
  by_cases hk : k ≤ Nat.factorial (N - 2)
  · exact (engineAt_master N hN k hk).1
  · have he : k = Nat.factorial (N - 2) + (k - Nat.factorial (N - 2)) := by omega
    rw [he, engineAt_frozen N hN]
    exact (engineAt_master N hN _ (le_refl _)).1

/-- Extending a permutation of the first `N-1` slots by the correct last
element gives a permutation of `{0,...,N-1}` on the first `N` slots. -/
theorem take_full_perm (l : List Int) (N : Nat) (hN : 1 ≤ N) (hlen : N ≤ l.length)
    (h1 : (l.take (N - 1)).Perm ((List.range (N - 1)).map Int.ofNat))
    (h2 : l.getD (N - 1) 0 = (N : Int) - 1) :
    (l.take N).Perm ((List.range N).map Int.ofNat) := by
  obtain ⟨M, rfl⟩ : ∃ M, N = M + 1 := ⟨N - 1, by omega⟩
  have hs : (M + 1) - 1 = M := rfl
  rw [hs] at h1 h2
  rw [List.take_succ, List.range_succ, List.map_append]
  apply h1.append
  have hM : l[M]? = some ((M : Int)) := by
    rw [List.getElem?_eq_getElem (by omega),
      ← List.getD_eq_getElem l 0 (by omega), h2]
    push_cast
    ring
  rw [hM]
  show ((M : Int) :: []).Perm [Int.ofNat M]
  exact List.Perm.refl _

/-! ### Claim theorems -/

/-- At exhaustion the running total equals `N!` exactly:
`(N-2)! * ((N-1) * N) = N!`. -/
theorem engineAt_final_total (N : Nat) (hN : 3 ≤ N) :
    (engineAt N (Nat.factorial (N - 2))).total = Nat.factorial N := by
  have h := (engineAt_master N hN _ (le_refl _)).2.2.2.2.1
  rw [h]
  obtain ⟨M, rfl⟩ : ∃ M, N = M + 3 := ⟨N - 3, by omega⟩
  show Nat.factorial (M + 3 - 2) * ((M + 3 - 1) * (M + 3)) = Nat.factorial (M + 3)
  have h1 : M + 3 - 2 = M + 1 := by omega
  have h2 : M + 3 - 1 = M + 2 := by omega
  rw [h1, h2, show M + 3 = (M + 2) + 1 from rfl,
    Nat.factorial_succ (M + 2), Nat.factorial_succ (M + 1)]
  ring

set_option maxHeartbeats 4000000 in
set_option maxRecDepth 20000 in
/-- Claim C1: the claim asserts that running the engine to exhaustion
produces exactly N! permutations, each distinct and appearing exactly
once, via (N-2)! outer iterations with total_perms = N! at exit.  The
counting half is true and is proved here in full generality: for every
N ≥ 3 the loop is live at exactly the first (N-2)! iterations and
total_perms at exit equals N! — in particular 87178291200 = 14! for the
code's N = 14.  The distinctness half is false: running the very same
loop at size N = 6, the base permutation P1 at the start of live outer
iteration index 3 is identical to the one at index 9 — even the whole
working buffer after the mirror sync is identical — so the N*(N-1)
permutations attributed to those two iterations are the same batch
counted twice, and the total 720 = 6! counts duplicates while other
permutations are never produced. -/
theorem claim_c1_total_reaches_factorial_but_bases_repeat :
    (∀ M : Nat,
      (∀ k, k < Nat.factorial (M + 3 - 2) → liveGuard (engineAt (M + 3) k)) ∧
      ¬ liveGuard (engineAt (M + 3) (Nat.factorial (M + 3 - 2))) ∧
      (engineAt (M + 3) (Nat.factorial (M + 3 - 2))).total
        = Nat.factorial (M + 3)) ∧
    (engineAt nSrc (Nat.factorial 12)).total = 87178291200 ∧
    (engineAt 6 24).total = 720 ∧
    720 = Nat.factorial 6 ∧
    24 = Nat.factorial (6 - 2) ∧
    liveGuard (engineAt 6 3) ∧
    liveGuard (engineAt 6 9) ∧
    (engineAt 6 3).D.take 6 = (engineAt 6 9).D.take 6 ∧
    (syncMirror 6 (engineAt 6 3)).D = (syncMirror 6 (engineAt 6 9)).D ∧
    engineAt 6 3 ≠ engineAt 6 9 := by
  have hgen : ∀ M : Nat,
      (∀ k, k < Nat.factorial (M + 3 - 2) → liveGuard (engineAt (M + 3) k)) ∧
      ¬ liveGuard (engineAt (M + 3) (Nat.factorial (M + 3 - 2))) ∧
      (engineAt (M + 3) (Nat.factorial (M + 3 - 2))).total
        = Nat.factorial (M + 3) := by
    intro M
    have hN : 3 ≤ M + 3 := by omega
    refine ⟨?_, ?_, engineAt_final_total (M + 3) hN⟩
    · intro k hk
      have := engineAt_live (M + 3) hN k hk
      unfold liveGuard
      omega
    · have := engineAt_final_c0 (M + 3) hN
      unfold liveGuard
      omega
  refine ⟨hgen, ?_, by decide, by decide, by decide, by decide, by decide,
    by decide, by decide, by decide⟩
  have h14 : (engineAt nSrc (Nat.factorial 12)).total = Nat.factorial 14 :=
    (hgen 11).2.2
  rw [h14]
  decide

/-- Claim C2: for every N ≥ 3 the generation loop terminates — the guard
`C_PP[0] < 1` holds at each of the first (N-2)! iterations and fails
from iteration (N-2)! on, after which the state is frozen; exhaustion is
signalled solely by `C_PP[0] ≥ 1`, and at termination `C_PP[0]` equals
exactly 1, never a larger value. -/
theorem claim_c2_termination (N : Nat) (hN : 3 ≤ N) :
    (∀ k, k < Nat.factorial (N - 2) → liveGuard (engineAt N k)) ∧
    ¬ liveGuard (engineAt N (Nat.factorial (N - 2))) ∧
    (∀ j, engineAt N (Nat.factorial (N - 2) + j)
        = engineAt N (Nat.factorial (N - 2))) ∧
    (engineAt N (Nat.factorial (N - 2))).C.getD 0 0 = 1 ∧
    (∀ k, 0 ≤ (engineAt N k).C.getD 0 0 ∧ (engineAt N k).C.getD 0 0 ≤ 1) ∧
    (∀ k, liveGuard (engineAt N k) ↔ ¬ 1 ≤ (engineAt N k).C.getD 0 0) := by
  have hc0le : ∀ k, 0 ≤ (engineAt N k).C.getD 0 0 ∧
      (engineAt N k).C.getD 0 0 ≤ 1 := by
    intro k
    by_cases hk : k ≤ Nat.factorial (N - 2)
    · exact (engineAt_master N hN k hk).2.2.1.2.2.2
    · have he : k = Nat.factorial (N - 2) + (k - Nat.factorial (N - 2)) := by
        omega
      rw [he, engineAt_frozen N hN]
      exact (engineAt_master N hN _ (le_refl _)).2.2.1.2.2.2
  refine ⟨?_, ?_, engineAt_frozen N hN, engineAt_final_c0 N hN, hc0le, ?_⟩
  · intro k hk
    have := engineAt_live N hN k hk
    unfold liveGuard
    omega
  · have := engineAt_final_c0 N hN
    unfold liveGuard
    omega
  · intro k
    unfold liveGuard
    have := hc0le k
    omega

/-- Witness for claim C2 at N = 4: the loop runs for exactly
(4-2)! = 2 iterations, then freezes with `C_PP[0] = 1`. -/
theorem claim_c2_termination_witness :
    liveGuard (engineAt 4 0) ∧ liveGuard (engineAt 4 1) ∧
    ¬ liveGuard (engineAt 4 2) ∧ engineAt 4 5 = engineAt 4 2 ∧
    (engineAt 4 2).C.getD 0 0 = 1 := by
  have h := claim_c2_termination 4 (by norm_num)
  exact ⟨h.1 0 (by decide), h.1 1 (by decide), h.2.1, h.2.2.1 3, h.2.2.2.1⟩

/-- Claim C3: each outer iteration's CP burst increases `total_perms` by
exactly `N*(N-1)` when N > 1 (`N` added once per each of the `N-1` shift
steps), and each single burst step increases `total_perms` by exactly
`N`. -/
theorem claim_c3_burst_total (N : Nat) (hN : 1 < N) (s : Engine) :
    (cpBurst N s).total = s.total + N * (N - 1) ∧
    (∀ ci, (burstStep N s ci).total = s.total + N) := by
  constructor
  · rw [cpBurst_total]
    ring
  · intro ci
    rfl

/-- Witness for claim C3 at N = 3 on the initial state. -/
theorem claim_c3_burst_total_witness :
    (cpBurst 3 (initEngine 3)).total = (initEngine 3).total + 3 * (3 - 1) ∧
    (burstStep 3 (initEngine 3) 0).total = (initEngine 3).total + 3 := by
  have h := claim_c3_burst_total 3 (by norm_num) (initEngine 3)
  exact ⟨h.1, h.2 0⟩

/-- Claim C4, counterexample: the claim places the restoration
`P[N-1] = N-1` inside the `C[0] < 1` conditional, but in the source
`P1[lastIndex] = lastIndex;` is unconditional.  They disagree on the
final (overflowing) pass: at N = 3, on the reachable state after the
sync and burst of the last loop iteration, the code's step restores
`P1[2] = 2` while the claim's version leaves the clobbered value 0. -/
theorem claim_c4_counterexample :
    ppAdvanceClaimed 3 (cpBurst 3 (syncMirror 3 (initEngine 3)))
      ≠ ppAdvance 3 (cpBurst 3 (syncMirror 3 (initEngine 3))) ∧
    (ppAdvance 3 (cpBurst 3 (syncMirror 3 (initEngine 3)))).D.getD 2 0 = 2 ∧
    (ppAdvanceClaimed 3 (cpBurst 3 (syncMirror 3 (initEngine 3)))).D.getD 2 0
      = 0 := by decide

/-- Claim C4, amended: the base-advance step increments `C` at `N-3`,
runs the carry loop (swap, reset, decrement, increment), then — only if
`C[0] < 1` — performs the guarded extra swap, and finally forces
`P[N-1] = N-1` unconditionally (outside the conditional).  This amended
rule is exactly the code's step, on every state. -/
theorem claim_c4_amended_rule (N : Nat) (s : Engine) :
    ppAdvanceAmended N s = ppAdvance N s := rfl

/-- Claim C5: at the start of every outer loop iteration (and at every
later point of the run), the base permutation `P1` — the first `N`
entries of `Circle_D` — is a valid permutation of `{0,...,N-1}`. -/
theorem claim_c5_p1_permutation (N : Nat) (hN : 3 ≤ N) (k : Nat) :
    ((engineAt N k).D.take N).Perm ((List.range N).map Int.ofNat) := by
  have main : ∀ m, m ≤ Nat.factorial (N - 2) →
      ((engineAt N m).D.take N).Perm ((List.range N).map Int.ofNat) := by
    intro m hm
    obtain ⟨iD, -, -, -, -, ip, il⟩ := engineAt_master N hN m hm
    exact take_full_perm _ N (by omega) (by omega) ip il
  by_cases hk : k ≤ Nat.factorial (N - 2)
  · exact main k hk
  · have he : k = Nat.factorial (N - 2) + (k - Nat.factorial (N - 2)) := by omega
    rw [he, engineAt_frozen N hN]
    exact main _ (le_refl _)

/-- Witness for claim C5 at N = 3 after one iteration. -/
theorem claim_c5_p1_permutation_witness :
    ((engineAt 3 1).D.take 3).Perm ((List.range 3).map Int.ofNat) :=
  claim_c5_p1_permutation 3 (by norm_num) 1

/-- Claim C6: at the start of every outer loop iteration every counter
entry satisfies `0 ≤ C_PP[i] ≤ i`, and `C_PP[0]` reaching 1 happens
exactly at the terminal overflow state (iteration `(N-2)!`), where it
equals 1. -/
theorem claim_c6_counter_invariant (N : Nat) (hN : 3 ≤ N) :
    (∀ k, k < Nat.factorial (N - 2) → ∀ i, i < N →
      0 ≤ (engineAt N k).C.getD i 0 ∧ (engineAt N k).C.getD i 0 ≤ (i : Int)) ∧
    (∀ k, k ≤ Nat.factorial (N - 2) →
      (1 ≤ (engineAt N k).C.getD 0 0 ↔ k = Nat.factorial (N - 2))) ∧
    (engineAt N (Nat.factorial (N - 2))).C.getD 0 0 = 1 := by
  refine ⟨?_, ?_, engineAt_final_c0 N hN⟩
  · intro k hk i hi
    have h0 := engineAt_live N hN k hk
    obtain ⟨-, -, iw, -, -, -, -⟩ := engineAt_master N hN k (le_of_lt hk)
    have hci := cInvW_to_cInv N _ iw h0
    by_cases hi3 : i ≤ N - 3
    · exact hci.2.1 i hi3
    · rw [hci.2.2 i (by omega)]
      constructor
      · exact le_refl 0
      · exact_mod_cast Int.ofNat_nonneg i
  · intro k hk
    obtain ⟨-, -, iw, iv, -, -, -⟩ := engineAt_master N hN k hk
    constructor
    · intro h1
      have hc01 : (engineAt N k).C.getD 0 0 = 1 := by
        have := iw.2.2.2
        omega
      have := ((cInvW_c0_iff N hN _ iw).2).1 hc01
      rw [iv] at this
      have hge : Nat.factorial (N - 2) ≤ k := by exact_mod_cast this
      omega
    · intro hke
      subst hke
      rw [engineAt_final_c0 N hN]

/-- Witness for claim C6 at N = 3 ((3-2)! = 1). -/
theorem claim_c6_counter_invariant_witness :
    (0 ≤ (engineAt 3 0).C.getD 0 0 ∧ (engineAt 3 0).C.getD 0 0 ≤ (0 : Int)) ∧
    (1 ≤ (engineAt 3 1).C.getD 0 0 ↔ 1 = Nat.factorial (3 - 2)) ∧
    (engineAt 3 (Nat.factorial (3 - 2))).C.getD 0 0 = 1 := by
  have h := claim_c6_counter_invariant 3 (by norm_num)
  refine ⟨?_, ?_, h.2.2⟩
  · have := h.1 0 (by decide) 0 (by norm_num)
    exact_mod_cast this
  · have := h.2.1 1 (by decide)
    simpa using this

/-- Claim C7: at entry to every CP burst (i.e. right after the mirror
sync of each outer iteration), the middle window (`P2`, offsets `N+j`)
and the trailing window (`P3`, offsets `2N-1+j`) are exact copies of the
first `N-1` elements of the current base permutation `P1`. -/
theorem claim_c7_mirror_windows (N : Nat) (hN : 3 ≤ N) (k : Nat) :
    ∀ j, j < N - 1 →
      (syncMirror N (engineAt N k)).D.getD (N + j) 0
          = (syncMirror N (engineAt N k)).D.getD j 0 ∧
      (syncMirror N (engineAt N k)).D.getD (2 * N - 1 + j) 0
          = (syncMirror N (engineAt N k)).D.getD j 0 := by
  intro j hj
  have hD := engineAt_D_length N hN k
  constructor
  · rw [syncMirror_getD_mid N hN _ hD j hj, syncMirror_getD_low N hN _ hD j (by omega)]
  · rw [syncMirror_getD_high N hN _ hD j hj, syncMirror_getD_low N hN _ hD j (by omega)]

/-- Witness for claim C7 at N = 3, first iteration, offset 0. -/
theorem claim_c7_mirror_windows_witness :
    (syncMirror 3 (engineAt 3 0)).D.getD 3 0
        = (syncMirror 3 (engineAt 3 0)).D.getD 0 0 ∧
    (syncMirror 3 (engineAt 3 0)).D.getD 5 0
        = (syncMirror 3 (engineAt 3 0)).D.getD 0 0 :=
  claim_c7_mirror_windows 3 (by norm_num) 0 0 (by norm_num)

/-- Claim C8: from every reachable live loop state, the loop body built
entirely from bounds-checked (Option-returning) reads and writes never
reaches the out-of-bounds branch: it returns `some` of exactly the state
the unchecked body computes. -/
theorem claim_c8_checked_body (N : Nat) (hN : 3 ≤ N) (k : Nat)
    (hk : k < Nat.factorial (N - 2)) :
    cbodyStep N (engineAt N k) = some (bodyStep N (engineAt N k)) := by
  have h0 := engineAt_live N hN k hk
  obtain ⟨iD, -, iw, -, -, -, -⟩ := engineAt_master N hN k (le_of_lt hk)
  exact cbodyStep_eq N hN _ (cInvW_to_cInv N _ iw h0) iD

/-- Witness for claim C8 at N = 3, iteration 0. -/
theorem claim_c8_checked_body_witness :
    cbodyStep 3 (engineAt 3 0) = some (bodyStep 3 (engineAt 3 0)) :=
  claim_c8_checked_body 3 (by norm_num) 0 (by decide)

/-- Claim C9: the CP burst phase writes only `Circle_D` indices `N-1`
through `2N-2` — it leaves every other `Circle_D` entry (in particular
`P1[0..N-2]` and the trailing window from index `2N-1` on) unchanged,
leaves `C_PP` unchanged, and changes `total_perms` only by adding
`N*(N-1)`. -/
theorem claim_c9_burst_frame (N : Nat) (s : Engine) :
    (∀ j, j < N - 1 ∨ 2 * N - 2 < j →
      (cpBurst N s).D.getD j 0 = s.D.getD j 0) ∧
    (cpBurst N s).C = s.C ∧
    (cpBurst N s).total = s.total + N * (N - 1) := by
  refine ⟨fun j hj => cpBurst_frame N s j hj, cpBurst_C N s, ?_⟩
  rw [cpBurst_total]
  ring

/-- Witness for claim C9 at N = 3 on the synced initial state: index 0
(inside `P1`) and index 5 (the trailing window) are untouched by the
burst. -/
theorem claim_c9_burst_frame_witness :
    (cpBurst 3 (syncMirror 3 (initEngine 3))).D.getD 0 0
        = (syncMirror 3 (initEngine 3)).D.getD 0 0 ∧
    (cpBurst 3 (syncMirror 3 (initEngine 3))).D.getD 5 0
        = (syncMirror 3 (initEngine 3)).D.getD 5 0 ∧
    (cpBurst 3 (syncMirror 3 (initEngine 3))).total
        = (syncMirror 3 (initEngine 3)).total + 3 * (3 - 1) := by
  have h := claim_c9_burst_frame 3 (syncMirror 3 (initEngine 3))
  exact ⟨h.1 0 (Or.inl (by norm_num)), h.1 5 (Or.inr (by norm_num)), h.2.2⟩

/-- Claim C10: the trailing window is never read back, so the variant
program with the `P3` synchronisation memcpy removed computes, at every
iteration count `k` (in particular at and after exhaustion), the same
`total_perms`, the same base permutation `P1`, and the same counter
array `C_PP` as the original. -/
theorem claim_c10_no_p3_equivalence (N : Nat) (hN : 3 ≤ N) (k : Nat) :
    (engineAtNoP3 N k).total = (engineAt N k).total ∧
    (engineAtNoP3 N k).D.take N = (engineAt N k).D.take N ∧
    (engineAtNoP3 N k).C = (engineAt N k).C := by
  have main : ∀ m, m ≤ Nat.factorial (N - 2) →
      (engineAtNoP3 N m).total = (engineAt N m).total ∧
      (engineAtNoP3 N m).D.take N = (engineAt N m).D.take N ∧
      (engineAtNoP3 N m).C = (engineAt N m).C := by
    intro m hm
    obtain ⟨hC, hT, hl1, hl2, hp⟩ := engineAtNoP3_rel N hN m hm
    refine ⟨hT, ?_, hC⟩
    exact take_eq_of_getD _ _ N (by omega) (by omega)
      (fun j hj => hp j (by omega))
  by_cases hk : k ≤ Nat.factorial (N - 2)
  · exact main k hk
  · have he : k = Nat.factorial (N - 2) + (k - Nat.factorial (N - 2)) := by omega
    rw [he, engineAt_frozen N hN, engineAtNoP3_frozen N hN]
    exact main _ (le_refl _)

/-- Witness for claim C10 at N = 3 after the full run ((3-2)! = 1) plus
one frozen step. -/
theorem claim_c10_no_p3_equivalence_witness :
    (engineAtNoP3 3 2).total = (engineAt 3 2).total ∧
    (engineAtNoP3 3 2).D.take 3 = (engineAt 3 2).D.take 3 ∧
    (engineAtNoP3 3 2).C = (engineAt 3 2).C :=
  claim_c10_no_p3_equivalence 3 (by norm_num) 2
